import Mathlib

/-!
Shallow embedding of the flight-phase battery-analysis pipeline of the
Intelaero repository (`src/backend/battery_analysis.py`, function
`process_ulog`; the script variant lives in
`src/flight-assurance/src/app/components/process_ulog.py`).

Conventions of the embedding:

* All numeric sample and derived values are rationals (`ℚ`).  The Python
  pipeline computes with IEEE doubles; every claim settled here is about
  exact algebraic structure (which rows enter which sum, which segments are
  emitted), so the rational model is used, and "to within floating-point
  tolerance" becomes exact equality.
* A float division whose denominator is zero yields `inf`/`NaN` in the
  source.  We model a value that may be non-finite as `Option ℚ`, with
  `none` standing for any non-finite float (`NaN` or `±inf`).  `div?` is the
  division that produces this marker.  Aggregation mirrors pandas' default
  `skipna=True`: `NaN` entries are skipped by `mean`/`sum`.
* `pd.merge_asof(..., on="time", direction="nearest")` is embedded by
  `asofNearest`, the backward/forward nearest join pandas implements: the
  backward candidate is the last battery row with time ≤ t, the forward
  candidate the first with time ≥ t, and on an exact distance tie the
  backward (earlier) row is taken.
* `sort_values("time")` is embedded as a stable insertion sort by time.
* `horizontal_velocity = sqrt(vx² + vy²)` is irrational in general, so the
  per-row classifier is embedded as `classify_row`, which receives the
  square `vx² + vy²` and compares it against the squared thresholds
  (0.1² = 1/100, 2.0² = 4); since `sqrt` is nonnegative and the thresholds
  are positive this is equivalent, and the equivalence with the scalar
  classifier `classify_phase` is proved (`classify_phase_eq_classify_row`).
* pandas' `groupby("Phase")` sorts group keys alphabetically; the embedding
  (`groupPhases`) keeps the keys in first-occurrence order instead, because
  `String` order does not evaluate in the kernel.  This affects only the
  relative order of the per-phase records, which no claim depends on; the
  summary record is appended after the group records exactly as in the
  source.
-/

/-- One record of the `vehicle_local_position` dataset:
`timestamp, vx, vy, vz, z` (raw integer clock ticks and velocities). -/
structure MotionSample where
  timestamp : ℚ
  vx : ℚ
  vy : ℚ
  vz : ℚ
  z : ℚ
deriving DecidableEq

/-- One record of the `battery_status` dataset: `timestamp, voltage_v, current_a`. -/
structure BatterySample where
  timestamp : ℚ
  voltage_v : ℚ
  current_a : ℚ
deriving DecidableEq

/-- A motion row after time normalization:
`df_position["time"] = (df_position["timestamp"] - t0_pos) / 1e6`. -/
structure MotRow where
  time : ℚ
  vx : ℚ
  vy : ℚ
  vz : ℚ
  z : ℚ
deriving DecidableEq

/-- A battery row after time normalization:
`df_battery["time"] = (df_battery["timestamp"] - t0_bat) / 1e6`. -/
structure BatRow where
  time : ℚ
  voltage_v : ℚ
  current_a : ℚ
deriving DecidableEq

instance : Inhabited BatRow := ⟨⟨0, 0, 0⟩⟩

/-- Time normalization of the motion series (seconds since first sample). -/
def normMotion (ms : List MotionSample) : List MotRow :=
  let t0 := (ms.head?.map MotionSample.timestamp).getD 0
  ms.map (fun m => ⟨(m.timestamp - t0) / 1e6, m.vx, m.vy, m.vz, m.z⟩)

/-- Time normalization of the battery series (seconds since first sample). -/
def normBattery (bs : List BatterySample) : List BatRow :=
  let t0 := (bs.head?.map BatterySample.timestamp).getD 0
  bs.map (fun b => ⟨(b.timestamp - t0) / 1e6, b.voltage_v, b.current_a⟩)

/-- Stable insertion of an element into a list sorted by `key`. -/
def insertByKey (key : α → ℚ) (a : α) : List α → List α
  | [] => [a]
  | x :: xs => if key a < key x then a :: x :: xs else x :: insertByKey key a xs

/-- Stable sort by `key`; embeds `DataFrame.sort_values("time")`. -/
def sortByKey (key : α → ℚ) (l : List α) : List α :=
  l.foldr (insertByKey key) []

/-- Backward asof candidate: the last battery row with `time ≤ t`. -/
def findBwd (t : ℚ) (bs : List BatRow) : Option BatRow :=
  (bs.filter (fun b => b.time ≤ t)).getLast?

/-- Forward asof candidate: the first battery row with `t ≤ time`. -/
def findFwd (t : ℚ) (bs : List BatRow) : Option BatRow :=
  (bs.filter (fun b => t ≤ b.time)).head?

/-- Nearest-time asof join for a single left key, as
`pd.merge_asof(..., on="time", direction="nearest")` computes it on a
sorted right table: compare the backward and forward candidates and take
the backward one when the distances tie. -/
def asofNearest (t : ℚ) (bs : List BatRow) : Option BatRow :=
  match findBwd t bs, findFwd t bs with
  | some b, some f => some (if t - b.time ≤ f.time - t then b else f)
  | some b, none => some b
  | none, some f => some f
  | none, none => none

/-- An aligned row of `df_combined` right after the merge: the motion
columns plus the matched battery row's columns. -/
structure ARow where
  time : ℚ
  vx : ℚ
  vy : ℚ
  vz : ℚ
  z : ℚ
  voltage_v : ℚ
  current_a : ℚ
deriving DecidableEq

/-- The `pd.merge_asof` call: one output row per motion row, carrying the
nearest battery row's values.  (The battery series is nonempty whenever the
source pipeline runs; for an empty one we pair the zero battery row.) -/
def mergeRows (ms : List MotRow) (bs : List BatRow) : List ARow :=
  ms.map (fun m =>
    let b := (asofNearest m.time bs).getD default
    ⟨m.time, m.vx, m.vy, m.vz, m.z, b.voltage_v, b.current_a⟩)

/-- An aligned row together with its `time_delta` column. -/
structure Row extends ARow where
  time_delta : ℚ
deriving DecidableEq

/-- Helper for `setDeltas`: each row's delta is its time minus `prev`. -/
def deltasFrom (prev : ℚ) : List ARow → List Row
  | [] => []
  | r :: rs => ⟨r, r.time - prev⟩ :: deltasFrom r.time rs

/-- The column `df_combined["time_delta"] = df_combined["time"].diff().fillna(0)`:
the first row gets delta 0, every later row the difference to its
predecessor's time. -/
def setDeltas : List ARow → List Row
  | [] => []
  | r :: rs => ⟨r, 0⟩ :: deltasFrom r.time rs

/-- The classifier thresholds (`thresholds` dict of the source). -/
structure Thresholds where
  ground_vel : ℚ
  cruise_vel : ℚ
  altitude_min : ℚ
  climb_vz : ℚ
  descend_vz : ℚ
deriving DecidableEq

/-- The default thresholds used by both source variants. -/
def defaultThresholds : Thresholds := ⟨0.1, 2.0, 5.0, -0.1, 0.1⟩

/-- The phase classifier `classify_phase(z_velocity, horizontal_velocity,
altitude, thresholds)` of `process_ulog.py` (the `np.select` conditions of
`battery_analysis.py` are the same rules in the same order): first-match
evaluation of Ground, Cruising, Descending, Climbing, Hovering, with
default Unknown. -/
def classify_phase (th : Thresholds) (z_velocity horizontal_velocity altitude : ℚ) : String :=
  if |z_velocity| < th.ground_vel ∧ |horizontal_velocity| < th.ground_vel ∧
      altitude < th.altitude_min then "On the Ground"
  else if horizontal_velocity > th.cruise_vel ∧ altitude ≥ th.altitude_min then "Cruising"
  else if z_velocity > th.descend_vz then "Descending"
  else if z_velocity < th.climb_vz then "Climbing"
  else if |z_velocity| < th.ground_vel ∧ altitude ≥ th.altitude_min then "Hovering"
  else "Unknown"

/-- The same classifier applied to the square `hvsq = vx² + vy²` of the
horizontal velocity, against the squared velocity thresholds
(0.1² = 1/100, 2.0² = 4).  This is the form the pipeline uses, so that the
embedding stays inside ℚ; `classify_phase_eq_classify_row` proves it agrees
with `classify_phase` at `horizontal_velocity = sqrt hvsq`. -/
def classify_row (vz hvsq altitude : ℚ) : String :=
  if |vz| < 0.1 ∧ hvsq < 0.1 ^ 2 ∧ altitude < 5.0 then "On the Ground"
  else if hvsq > 2.0 ^ 2 ∧ altitude ≥ 5.0 then "Cruising"
  else if vz > 0.1 then "Descending"
  else if vz < -0.1 then "Climbing"
  else if |vz| < 0.1 ∧ altitude ≥ 5.0 then "Hovering"
  else "Unknown"

/-- The raw phase column of a combined row:
`df_combined["raw_phase"]` from `vz`, `horizontal_velocity`, `altitude = -z`. -/
def rawPhase (r : Row) : String :=
  classify_row r.vz (r.vx ^ 2 + r.vy ^ 2) (-r.z)

/-- The three columns `consolidate_phases` reads:
`df[["time", "raw_phase", "time_delta"]]`. -/
structure CRow where
  time : ℚ
  raw_phase : String
  time_delta : ℚ
deriving DecidableEq

instance : Inhabited CRow := ⟨⟨0, "", 0⟩⟩

/-- Projection of a combined row onto the consolidator's columns. -/
def toCRow (r : Row) : CRow := ⟨r.time, rawPhase r, r.time_delta⟩

/-- A consolidated phase segment `(phase, start_time, end_time)`. -/
abbrev Seg := String × ℚ × ℚ

/-- Sum of the `time_delta` column. -/
def sumDelta (l : List CRow) : ℚ := (l.map CRow.time_delta).sum

/-- The loop body of `consolidate_phases`: state is the current phase, its
start time and its accumulated duration; `last` is `df["time"].iloc[-1]`,
used by the final flush. -/
def consolidateAux (θ : ℚ) (last : ℚ) : String → ℚ → ℚ → List CRow → List Seg
  | phase, start, total, [] => if θ ≤ total then [(phase, start, last)] else []
  | phase, start, total, r :: rs =>
    if r.raw_phase = phase then
      consolidateAux θ last phase start (total + r.time_delta) rs
    else if θ ≤ total then
      (phase, start, r.time) :: consolidateAux θ last r.raw_phase r.time r.time_delta rs
    else
      consolidateAux θ last r.raw_phase r.time r.time_delta rs

/-- Last entry of the time column, 0 for an empty frame (the source raises
on an empty frame; all claims assume a nonempty one). -/
def lastTimeOf (rows : List CRow) : ℚ := (rows.map CRow.time).getLastD 0

/-- The function `consolidate_phases(df, time_threshold)`: seed the state
from the first row, run the loop over all rows (the first row matches the
seeded phase and only accumulates its delta 0-based total), and flush the
final accumulator against the same threshold with end time
`df["time"].iloc[-1]`. -/
def consolidate_phases (rows : List CRow) (θ : ℚ) : List Seg :=
  match rows with
  | [] => []
  | r :: _ => consolidateAux θ (lastTimeOf rows) r.raw_phase r.time 0 rows

/-- Maximal runs of consecutive rows sharing a `raw_phase`, each as
(first row, remaining rows of the run).  Specification-side notion used to
state what the consolidator emits. -/
def chunks : List CRow → List (CRow × List CRow)
  | [] => []
  | r :: rs =>
    (r, rs.takeWhile (fun x => x.raw_phase = r.raw_phase)) ::
      chunks (rs.dropWhile (fun x => x.raw_phase = r.raw_phase))
termination_by l => l.length
decreasing_by
  simp only [List.length_cons]
  exact Nat.lt_succ_of_le (List.dropWhile_sublist _).length_le

/-- Accumulated `time_delta` of a maximal run (its first row's delta
included, exactly as the loop accumulates it). -/
def runDelta (run : CRow × List CRow) : ℚ := run.1.time_delta + sumDelta run.2

/-- First row time of the first chunk, or `last` when no chunk remains:
the end time the consolidator uses for the segment emitted just before. -/
def headTimeD (cl : List (CRow × List CRow)) (last : ℚ) : ℚ :=
  match cl with
  | [] => last
  | (r, _) :: _ => r.time

/-- Specification-side segment list: one segment per maximal run whose
accumulated duration meets the threshold, spanning from the run's first row
to the next run's first row (or to `last` for the final run). -/
def segsOfRuns (θ last : ℚ) : List (CRow × List CRow) → List Seg
  | [] => []
  | (r, c) :: rest =>
    (if θ ≤ runDelta (r, c) then [(r.raw_phase, r.time, headTimeD rest last)] else []) ++
      segsOfRuns θ last rest

/-- Division returning an explicit non-finite marker: a float division by
zero produces `±inf`/`NaN` in the source, modelled as `none`. -/
def div? (a b : ℚ) : Option ℚ := if b = 0 then none else some (a / b)

/-- Division of possibly non-finite values (non-finite propagates). -/
def odiv : Option ℚ → Option ℚ → Option ℚ
  | some a, some b => div? a b
  | _, _ => none

/-- Scaling of a possibly non-finite value. -/
def omul (x : Option ℚ) (c : ℚ) : Option ℚ := x.map (· * c)

/-- pandas `mean` with `skipna=True`: skip non-finite entries, `NaN` when
nothing remains. -/
def meanO (xs : List (Option ℚ)) : Option ℚ :=
  let vs := xs.filterMap id
  if vs.isEmpty then none else some (vs.sum / vs.length)

/-- pandas `sum` with `skipna=True` (an all-`NaN` column sums to 0). -/
def sumO (xs : List (Option ℚ)) : Option ℚ := some (xs.filterMap id).sum

/-- The charge-draw column `df_combined["mAh"] =
df_combined["current_a"] * df_combined["time_delta"] / 3.6`. -/
def mAh (r : Row) : ℚ := r.current_a * r.time_delta / 3.6

/-- Flight-wide total draw `total_mAh = df_combined["mAh"].sum()`
(over the surviving rows: the frame is filtered before this line). -/
def total_mAh (rows : List Row) : ℚ := (rows.map mAh).sum

/-- Flight duration `total_time = df_combined["time"].iloc[-1] -
df_combined["time"].iloc[0]` over the surviving rows. -/
def total_time (rows : List Row) : ℚ :=
  (rows.map (fun r => r.time)).getLastD 0 - (rows.head?.map (fun r => r.time)).getD 0

/-- The rows whose raw label is not Ground:
`non_ground = df_combined[df_combined["raw_phase"] != "On the Ground"]`. -/
def nonGroundRows (rows : List Row) : List Row :=
  rows.filter (fun r => ¬ rawPhase r = "On the Ground")

/-- Numerator of the non-ground baseline: `non_ground["mAh"].sum()`. -/
def total_mAh_non_ground (rows : List Row) : ℚ := ((nonGroundRows rows).map mAh).sum

/-- Denominator of the non-ground baseline: `non_ground["time_delta"].sum()`. -/
def total_time_non_ground (rows : List Row) : ℚ :=
  ((nonGroundRows rows).map Row.time_delta).sum

/-- The non-ground baseline rate `avg_mAh_per_s_non_ground =
total_mAh_non_ground / total_time_non_ground` (non-finite on an all-ground
flight, where the denominator is 0). -/
def avg_mAh_per_s_non_ground (rows : List Row) : Option ℚ :=
  div? (total_mAh_non_ground rows) (total_time_non_ground rows)

/-- One `phase_data` entry, built from a consolidated segment: select the
rows with `start ≤ time < end`, take duration `end - start`, the summed
draw, the segment rate, the rate as a percentage of the non-ground
baseline, and the share of flight time. -/
structure PhaseRec where
  Phase : String
  TotalTime : ℚ
  TotalDraw : ℚ
  AvgDr : Option ℚ
  DiffofAvg : Option ℚ
  PctTime : Option ℚ
deriving DecidableEq

/-- The `phase_data.append({...})` record for one segment. -/
def phaseEntry (rows : List Row) (seg : Seg) : PhaseRec :=
  let start := seg.2.1
  let stop := seg.2.2
  let phase_df := rows.filter (fun r => start ≤ r.time ∧ r.time < stop)
  let phase_duration := stop - start
  let phase_mAh := (phase_df.map mAh).sum
  let avg_dr_phase := div? phase_mAh phase_duration
  { Phase := seg.1
    TotalTime := phase_duration
    TotalDraw := phase_mAh
    AvgDr := avg_dr_phase
    DiffofAvg := omul (odiv avg_dr_phase (avg_mAh_per_s_non_ground rows)) 100
    PctTime := omul (div? phase_duration (total_time rows)) 100 }

/-- Aggregation of one phase group (`groupby("Phase").agg`): durations,
draws and time shares are summed, the segment rate and relative percentage
are averaged across the group's segments. -/
def mkAgg (p : PhaseRec) (same : List PhaseRec) : PhaseRec :=
  { Phase := p.Phase
    TotalTime := p.TotalTime + (same.map PhaseRec.TotalTime).sum
    TotalDraw := p.TotalDraw + (same.map PhaseRec.TotalDraw).sum
    AvgDr := meanO (p.AvgDr :: same.map PhaseRec.AvgDr)
    DiffofAvg := meanO (p.DiffofAvg :: same.map PhaseRec.DiffofAvg)
    PctTime := sumO (p.PctTime :: same.map PhaseRec.PctTime) }

/-- The `groupby("Phase", as_index=False).agg({...})` step: one aggregated
record per distinct phase label (first-occurrence key order; pandas sorts
the keys alphabetically, which no claim depends on). -/
def groupPhases (l : List PhaseRec) : List PhaseRec :=
  match l with
  | [] => []
  | p :: rest =>
    mkAgg p (rest.filter (fun q => q.Phase = p.Phase)) ::
      groupPhases (rest.filter (fun q => ¬ q.Phase = p.Phase))
termination_by l.length
decreasing_by
  simp only [List.length_cons]
  exact Nat.lt_succ_of_le (List.length_filter_le _ _)

/-- Distinct keys of a string list in first-occurrence order. -/
def dedupKeys (l : List String) : List String :=
  match l with
  | [] => []
  | s :: rest => s :: dedupKeys (rest.filter (fun x => ¬ x = s))
termination_by l.length
decreasing_by
  simp only [List.length_cons]
  exact Nat.lt_succ_of_le (List.length_filter_le _ _)

/-- Round to integer, ties to even (Python's `round`). -/
def roundHalfEven (x : ℚ) : ℤ :=
  if x - ⌊x⌋ < 1/2 then ⌊x⌋
  else if 1/2 < x - ⌊x⌋ then ⌊x⌋ + 1
  else if ⌊x⌋ % 2 = 0 then ⌊x⌋ else ⌊x⌋ + 1

/-- Python's `round(x, 2)` on the rational model. -/
def round2 (q : ℚ) : ℚ := (roundHalfEven (100 * q) : ℚ) / 100

/-- A record of the final report frame.  After the `pd.concat` the frame
has the union of the phase columns and the summary columns; a column
missing from a record is `NaN`, modelled as `none`. -/
structure ReportRec where
  Phase : String
  TotalTime : ℚ
  TotalDraw : ℚ
  AvgDr : Option ℚ
  DiffofAvg : Option ℚ
  PctTime : Option ℚ
  DrawPerMin : Option ℚ
deriving DecidableEq

/-- A phase record carried into the report (no draw-per-minute column). -/
def toReportRec (p : PhaseRec) : ReportRec :=
  ⟨p.Phase, p.TotalTime, p.TotalDraw, p.AvgDr, p.DiffofAvg, p.PctTime, none⟩

/-- The `summary_data` record: fixed label, flight totals, and
`round(total_mAh / (total_time / 60), 2)`. -/
def summaryRec (rows : List Row) : ReportRec :=
  { Phase := "Total Flight Summary"
    TotalTime := total_time rows
    TotalDraw := total_mAh rows
    AvgDr := none
    DiffofAvg := none
    PctTime := none
    DrawPerMin := (div? (total_mAh rows) (total_time rows / 60)).map round2 }

/-- The consolidated segments of a (surviving) row list, with the source's
default threshold of 1.0 s. -/
def consolidatedOf (rows : List Row) : List Seg :=
  consolidate_phases (rows.map toCRow) 1

/-- The `phase_data` list: one record per consolidated segment. -/
def phaseData (rows : List Row) : List PhaseRec :=
  (consolidatedOf rows).map (phaseEntry rows)

/-- The report built from the surviving rows: aggregated phase records
followed by the single flight summary record. -/
def reportOf (rows : List Row) : List ReportRec :=
  (groupPhases (phaseData rows)).map toReportRec ++ [summaryRec rows]

/-- The combined frame `df_combined` of `process_ulog`: normalize both
series, sort both by time, merge on nearest time, and add the
`time_delta` column. -/
def df_combined (ms : List MotionSample) (bs : List BatterySample) : List Row :=
  setDeltas
    (mergeRows (sortByKey MotRow.time (normMotion ms))
      (sortByKey BatRow.time (normBattery bs)))

/-- The surviving rows:
`df_combined = df_combined[df_combined["time_delta"] > 0]`. -/
def surviving (ms : List MotionSample) (bs : List BatterySample) : List Row :=
  (df_combined ms bs).filter (fun r => 0 < r.time_delta)

/-- The consolidated phases of the full pipeline. -/
def consolidated (ms : List MotionSample) (bs : List BatterySample) : List Seg :=
  consolidatedOf (surviving ms bs)

/-- The aggregated per-phase frame `df_phase` before the summary row. -/
def df_phase (ms : List MotionSample) (bs : List BatterySample) : List PhaseRec :=
  groupPhases (phaseData (surviving ms bs))

/-- The full report `process_ulog` serializes: phase aggregates plus the
flight summary. -/
def report (ms : List MotionSample) (bs : List BatterySample) : List ReportRec :=
  reportOf (surviving ms bs)

/-- Boolean Ground predicate (rule 1) at the default thresholds, on the
scalar classifier inputs.  Specification-side, for the precedence claim. -/
def groundB (vz hv altitude : ℚ) : Bool :=
  decide (|vz| < 0.1 ∧ |hv| < 0.1 ∧ altitude < 5.0)

/-- Boolean Cruising predicate (rule 2) at the default thresholds. -/
def cruiseB (vz hv altitude : ℚ) : Bool :=
  decide (hv > 2.0 ∧ altitude ≥ 5.0)

/-- Boolean Descending predicate (rule 3) at the default thresholds. -/
def descendB (vz hv altitude : ℚ) : Bool :=
  decide (vz > 0.1)

/-- Boolean Climbing predicate (rule 4) at the default thresholds. -/
def climbB (vz hv altitude : ℚ) : Bool :=
  decide (vz < -0.1)

/-- Boolean Hovering predicate (rule 5) at the default thresholds. -/
def hoverB (vz hv altitude : ℚ) : Bool :=
  decide (|vz| < 0.1 ∧ altitude ≥ 5.0)

/-- Modelled from the spec: the ordered (predicate, label) rule list of
§4.3, evaluated first-match-wins. -/
def phaseRules : List ((ℚ → ℚ → ℚ → Bool) × String) :=
  [(groundB, "On the Ground"), (cruiseB, "Cruising"), (descendB, "Descending"),
    (climbB, "Climbing"), (hoverB, "Hovering")]

/-- Modelled from the spec: first-match-wins evaluation of an ordered rule
list with a default label. -/
def firstMatch (rules : List ((ℚ → ℚ → ℚ → Bool) × String)) (dflt : String)
    (vz hv altitude : ℚ) : String :=
  match rules with
  | [] => dflt
  | (p, lbl) :: rest =>
    if p vz hv altitude then lbl else firstMatch rest dflt vz hv altitude

/-- The six phase labels. -/
def phaseLabels : List String :=
  ["On the Ground", "Cruising", "Descending", "Climbing", "Hovering", "Unknown"]

/-- Rendering of a segment list back into timed, uniformly labelled rows
(each segment contributes its two boundary times under its label), with
`time_delta` recomputed as consecutive differences exactly as the pipeline
derives it — the "uniform-label sub-sequence with its boundaries" reading
of the idempotence claim. -/
def renderSegs (segs : List Seg) : List (ℚ × String) :=
  (segs.map (fun s => [(s.2.1, s.1), (s.2.2, s.1)])).flatten

/-- Helper for `timedToRows`: deltas relative to the previous time. -/
def deltasOn (prev : ℚ) : List (ℚ × String) → List CRow
  | [] => []
  | (t, p) :: rest => ⟨t, p, t - prev⟩ :: deltasOn t rest

/-- Timed labelled points to consolidator rows: first delta 0, then
consecutive differences. -/
def timedToRows : List (ℚ × String) → List CRow
  | [] => []
  | (t, p) :: rest => ⟨t, p, 0⟩ :: deltasOn t rest

/-- The row sequence obtained from a segment list for re-consolidation. -/
def segRows (segs : List Seg) : List CRow := timedToRows (renderSegs segs)

/-- Last segment end of a list, `d` for the empty list. -/
def lastEndD (d : ℚ) (segs : List Seg) : ℚ := (segs.map (fun s => s.2.2)).getLastD d

/-- Test flight: four stationary motion samples at 1 Hz (an all-ground
flight). -/
def groundFlightMotion : List MotionSample :=
  [⟨0, 0, 0, 0, 0⟩, ⟨1000000, 0, 0, 0, 0⟩, ⟨2000000, 0, 0, 0, 0⟩, ⟨3000000, 0, 0, 0, 0⟩]

/-- Test flight: a single battery sample with constant current 7.2 A
(so each 1 s row draws 7.2·1/3.6 = 2 charge units). -/
def groundFlightBattery : List BatterySample := [⟨0, 12, 7.2⟩]

/-- Test flight: a mostly stationary flight with a single half-second
climbing sample (vz = −1) at t = 3.5 s. -/
def flickerFlightMotion : List MotionSample :=
  [⟨0, 0, 0, 0, 0⟩, ⟨1000000, 0, 0, 0, 0⟩, ⟨2000000, 0, 0, 0, 0⟩, ⟨3000000, 0, 0, 0, 0⟩,
    ⟨3500000, 0, 0, -1, 0⟩, ⟨4000000, 0, 0, 0, 0⟩, ⟨5000000, 0, 0, 0, 0⟩,
    ⟨6000000, 0, 0, 0, 0⟩]

/-! ## Theorems -/

/-- Equivalence of the squared-threshold row classifier with the scalar
classifier at the default thresholds, for a nonnegative horizontal
velocity (which `sqrt` always is): the embedding's `classify_row` is
faithful to `classify_phase`. -/
theorem classify_phase_eq_classify_row (vz hv altitude : ℚ) (hh : 0 ≤ hv) :
    classify_phase defaultThresholds vz hv altitude = classify_row vz (hv ^ 2) altitude := by
  have h1 : (|hv| < 0.1) ↔ (hv ^ 2 < 0.1 ^ 2) := by
    rw [abs_of_nonneg hh]
    constructor <;> intro h <;> nlinarith
  have h2 : (hv > 2.0) ↔ (hv ^ 2 > 2.0 ^ 2) := by
    constructor <;> intro h <;> nlinarith
  simp only [classify_phase, classify_row, defaultThresholds, h1, h2]

/-- Totality of the row classifier: every input gets one of the six labels. -/
theorem classify_row_mem_phaseLabels (vz hvsq altitude : ℚ) :
    classify_row vz hvsq altitude ∈ phaseLabels := by
  unfold classify_row phaseLabels
  split_ifs <;> simp

/-- C3: the phase classifier is a total deterministic function of
(vz, horizontal velocity, altitude): every real-valued input receives
exactly one of the six labels; it equals first-match-wins evaluation of
the fixed ordered rule list Ground, Cruising, Descending, Climbing,
Hovering with default Unknown; and no input satisfies the Ground and the
Cruising predicate simultaneously (their velocity and altitude ranges are
disjoint), so the claimed Ground precedence on such inputs holds
vacuously. -/
theorem c3_classifier_total_first_match :
    ∀ vz hv altitude : ℚ,
      classify_phase defaultThresholds vz hv altitude ∈ phaseLabels ∧
      classify_phase defaultThresholds vz hv altitude =
        firstMatch phaseRules "Unknown" vz hv altitude ∧
      (groundB vz hv altitude = false ∨ cruiseB vz hv altitude = false) := by
  intro vz hv altitude
  refine ⟨?_, ?_, ?_⟩
  · unfold classify_phase phaseLabels defaultThresholds
    split_ifs <;> simp
  · simp only [classify_phase, firstMatch, phaseRules, groundB, cruiseB, descendB,
      climbB, hoverB, defaultThresholds, decide_eq_true_eq]
  · rcases le_or_lt hv 2.0 with h | h
    · right
      rw [cruiseB, decide_eq_false_iff_not]
      rintro ⟨h1, -⟩
      exact absurd h1 (not_lt.mpr h)
    · left
      rw [groundB, decide_eq_false_iff_not]
      rintro ⟨-, h2, -⟩
      have := lt_of_le_of_lt (le_abs_self hv) h2
      linarith

/-- Sum over a filtered list as a sum of guarded terms over the whole list. -/
theorem sum_map_filter_eq {α : Type} (p : α → Prop) [DecidablePred p] (f : α → ℚ) :
    ∀ l : List α,
      ((l.filter (fun x => p x)).map f).sum = (l.map (fun x => if p x then f x else 0)).sum := by
  intro l
  induction l with
  | nil => rfl
  | cons x xs ih =>
    by_cases h : p x <;> simp [List.filter_cons, h, ih]

/-- C7: the non-ground baseline rate is the sum of `charge_draw` over
surviving rows whose raw label is not Ground, divided by the sum of those
same rows' `time_delta` — a restriction by per-row raw label over all
surviving rows, with no reference to segments or their survival. -/
theorem c7_non_ground_baseline (ms : List MotionSample) (bs : List BatterySample) :
    avg_mAh_per_s_non_ground (surviving ms bs) =
      div?
        (((surviving ms bs).map
          (fun r => if ¬ rawPhase r = "On the Ground" then mAh r else 0)).sum)
        (((surviving ms bs).map
          (fun r => if ¬ rawPhase r = "On the Ground" then r.time_delta else 0)).sum) := by
  unfold avg_mAh_per_s_non_ground total_mAh_non_ground total_time_non_ground nonGroundRows
  rw [sum_map_filter_eq (fun r => ¬ rawPhase r = "On the Ground") mAh,
    sum_map_filter_eq (fun r => ¬ rawPhase r = "On the Ground") (fun r => r.time_delta)]

/-- Sum of deltas of an empty list. -/
theorem sumDelta_nil : sumDelta [] = 0 := rfl

/-- Sum of deltas of a cons. -/
theorem sumDelta_cons (r : CRow) (l : List CRow) :
    sumDelta (r :: l) = r.time_delta + sumDelta l := by
  simp [sumDelta]

/-- Rows matching the current phase are absorbed into the accumulator. -/
theorem consolidateAux_absorb (θ last : ℚ) (p : String) :
    ∀ (run rest : List CRow) (s tot : ℚ),
      (∀ r ∈ run, r.raw_phase = p) →
      consolidateAux θ last p s tot (run ++ rest) =
        consolidateAux θ last p s (tot + sumDelta run) rest := by
  intro run
  induction run with
  | nil => intro rest s tot _; simp [sumDelta]
  | cons r run' ih =>
    intro rest s tot hrun
    have hr : r.raw_phase = p := hrun r (List.mem_cons_self r run')
    have hrun' : ∀ x ∈ run', x.raw_phase = p :=
      fun x hx => hrun x (List.mem_cons_of_mem r hx)
    rw [List.cons_append]
    show consolidateAux θ last p s tot (r :: (run' ++ rest)) = _
    simp only [consolidateAux, hr, if_true, if_pos]
    rw [ih rest s (tot + r.time_delta) hrun', sumDelta_cons, add_assoc]

/-- The head of a `dropWhile` does not satisfy the predicate. -/
theorem head_dropWhile_false (p : α → Bool) :
    ∀ (l : List α) (x : α), (l.dropWhile p).head? = some x → p x = false := by
  intro l
  induction l with
  | nil => intro x h; simp [List.dropWhile] at h
  | cons a l' ih =>
    intro x h
    rw [List.dropWhile_cons] at h
    by_cases ha : p a
    · rw [if_pos ha] at h
      exact ih x h
    · rw [if_neg ha] at h
      simp at h
      rw [← h]
      exact Bool.not_eq_true _ ▸ (Bool.eq_false_iff.mpr ha)

/-- Running the consolidation loop over a row list whose first row does not
match the current phase yields one segment per qualifying maximal run,
prefixed by the possible emission of the accumulated state. -/
theorem consolidateAux_chunks (θ last : ℚ) :
    ∀ (n : ℕ) (l : List CRow), l.length ≤ n → ∀ (p : String) (s tot : ℚ),
      (∀ r, l.head? = some r → ¬ r.raw_phase = p) →
      consolidateAux θ last p s tot l =
        (if θ ≤ tot then [(p, s, headTimeD (chunks l) last)] else []) ++
          segsOfRuns θ last (chunks l) := by
  intro n
  induction n with
  | zero =>
    intro l hl p s tot _
    rw [List.length_eq_zero.mp (Nat.le_zero.mp hl)]
    simp [consolidateAux, chunks, segsOfRuns, headTimeD]
  | succ n ih =>
    intro l hl p s tot hhead
    match l with
    | [] => simp [consolidateAux, chunks, segsOfRuns, headTimeD]
    | r :: rs =>
      have hr : ¬ r.raw_phase = p := hhead r rfl
      have htake : ∀ x ∈ rs.takeWhile (fun x => x.raw_phase = r.raw_phase),
          x.raw_phase = r.raw_phase :=
        fun x hx => of_decide_eq_true
          (@List.mem_takeWhile_imp CRow (fun x => decide (x.raw_phase = r.raw_phase)) rs x hx)
      have hdrophead : ∀ x,
          (rs.dropWhile (fun x => x.raw_phase = r.raw_phase)).head? = some x →
          ¬ x.raw_phase = r.raw_phase := by
        intro x hx
        have := head_dropWhile_false _ rs x hx
        simpa using this
      have hdroplen :
          (rs.dropWhile (fun x => x.raw_phase = r.raw_phase)).length ≤ n := by
        have h1 := (@List.dropWhile_sublist CRow rs
          (fun x => decide (x.raw_phase = r.raw_phase))).length_le
        have h2 : rs.length ≤ n := by
          simpa using Nat.le_of_succ_le_succ (by simpa using hl)
        exact le_trans h1 h2
      have hstep : consolidateAux θ last p s tot (r :: rs) =
          (if θ ≤ tot then [(p, s, r.time)] else []) ++
            consolidateAux θ last r.raw_phase r.time r.time_delta rs := by
        by_cases htot : θ ≤ tot <;> simp [consolidateAux, hr, htot]
      rw [hstep]
      conv_lhs =>
        rw [← List.takeWhile_append_dropWhile
          (fun x : CRow => decide (x.raw_phase = r.raw_phase)) rs]
      rw [consolidateAux_absorb θ last r.raw_phase _ _ r.time r.time_delta htake,
        ih _ hdroplen r.raw_phase r.time _ hdrophead]
      rw [chunks]
      simp only [segsOfRuns, headTimeD, runDelta]

/-- Rows taken while the phase matches all share that phase. -/
theorem takeWhile_phase_eq (r : CRow) (rs : List CRow) :
    ∀ x ∈ rs.takeWhile (fun x => x.raw_phase = r.raw_phase), x.raw_phase = r.raw_phase :=
  fun x hx => of_decide_eq_true
    (@List.mem_takeWhile_imp CRow (fun x => decide (x.raw_phase = r.raw_phase)) rs x hx)

/-- The first row left after dropping the matching prefix has a different
phase. -/
theorem dropWhile_head_phase_ne (r : CRow) (rs : List CRow) :
    ∀ x, (rs.dropWhile (fun x => x.raw_phase = r.raw_phase)).head? = some x →
      ¬ x.raw_phase = r.raw_phase := by
  intro x hx
  have := head_dropWhile_false _ rs x hx
  simpa using this

/-- Characterization of `consolidate_phases`: the output is exactly one
segment per maximal label run whose accumulated `time_delta` meets the
threshold, spanning from the run's first row to the next run's first row
(the final run to the last row's time). -/
theorem consolidate_phases_eq_segsOfRuns (rows : List CRow) (θ : ℚ) :
    consolidate_phases rows θ = segsOfRuns θ (lastTimeOf rows) (chunks rows) := by
  match rows with
  | [] => simp [consolidate_phases, chunks, segsOfRuns]
  | r :: rs =>
    show consolidateAux θ (lastTimeOf (r :: rs)) r.raw_phase r.time 0 (r :: rs) = _
    have hstep : consolidateAux θ (lastTimeOf (r :: rs)) r.raw_phase r.time 0 (r :: rs) =
        consolidateAux θ (lastTimeOf (r :: rs)) r.raw_phase r.time (0 + r.time_delta) rs := by
      simp [consolidateAux]
    rw [hstep]
    generalize lastTimeOf (r :: rs) = L
    conv_lhs =>
      rw [← List.takeWhile_append_dropWhile
        (fun x : CRow => decide (x.raw_phase = r.raw_phase)) rs]
    rw [consolidateAux_absorb θ _ r.raw_phase _ _ r.time (0 + r.time_delta)
        (takeWhile_phase_eq r rs),
      consolidateAux_chunks θ _ _ _ le_rfl r.raw_phase r.time _
        (dropWhile_head_phase_ne r rs)]
    rw [chunks]
    simp only [segsOfRuns, headTimeD, runDelta, zero_add]

/-- The head row of every maximal run is a row of the list. -/
theorem mem_chunks_head_mem :
    ∀ (n : ℕ) (l : List CRow), l.length ≤ n →
      ∀ run ∈ chunks l, run.1 ∈ l := by
  intro n
  induction n with
  | zero =>
    intro l hl run hrun
    rw [List.length_eq_zero.mp (Nat.le_zero.mp hl)] at hrun
    simp [chunks] at hrun
  | succ n ih =>
    intro l hl run hrun
    match l with
    | [] => simp [chunks] at hrun
    | r :: rs =>
      rw [chunks] at hrun
      rcases List.mem_cons.mp hrun with h | h
      · rw [h]
        exact List.mem_cons_self r rs
      · have hdroplen :
            (rs.dropWhile (fun x => x.raw_phase = r.raw_phase)).length ≤ n := by
          have h1 := (@List.dropWhile_sublist CRow rs
            (fun x => decide (x.raw_phase = r.raw_phase))).length_le
          have h2 : rs.length ≤ n := by
            simpa using Nat.le_of_succ_le_succ (by simpa using hl)
          exact le_trans h1 h2
        have hmem := ih _ hdroplen run h
        exact List.mem_cons_of_mem r
          ((@List.dropWhile_sublist CRow rs
            (fun x => decide (x.raw_phase = r.raw_phase))).subset hmem)

/-- With strictly increasing row times, the head times of the maximal runs
are strictly increasing as well. -/
theorem chunks_heads_pairwise :
    ∀ (n : ℕ) (l : List CRow), l.length ≤ n →
      List.Pairwise (fun a b : CRow => a.time < b.time) l →
      List.Pairwise (fun a b : CRow × List CRow => a.1.time < b.1.time) (chunks l) := by
  intro n
  induction n with
  | zero =>
    intro l hl _
    rw [List.length_eq_zero.mp (Nat.le_zero.mp hl)]
    simp [chunks]
  | succ n ih =>
    intro l hl hp
    match l with
    | [] => simp [chunks]
    | r :: rs =>
      rw [chunks]
      rcases List.pairwise_cons.mp hp with ⟨hr, hrs⟩
      have hdroplen :
          (rs.dropWhile (fun x => x.raw_phase = r.raw_phase)).length ≤ n := by
        have h1 := (@List.dropWhile_sublist CRow rs
          (fun x => decide (x.raw_phase = r.raw_phase))).length_le
        have h2 : rs.length ≤ n := by
          simpa using Nat.le_of_succ_le_succ (by simpa using hl)
        exact le_trans h1 h2
      have hdp : List.Pairwise (fun a b : CRow => a.time < b.time)
          (rs.dropWhile (fun x => x.raw_phase = r.raw_phase)) :=
        List.Pairwise.sublist (@List.dropWhile_sublist CRow rs
          (fun x => decide (x.raw_phase = r.raw_phase))) hrs
      refine List.pairwise_cons.mpr ⟨?_, ih _ hdroplen hdp⟩
      intro run hrun
      have hmem := mem_chunks_head_mem _ _ le_rfl run hrun
      exact hr run.1
        ((@List.dropWhile_sublist CRow rs
          (fun x => decide (x.raw_phase = r.raw_phase))).subset hmem)

/-- Every emitted segment comes from a qualifying maximal run: its label
and start time are the run's first row's, and its end time is the last
row's time or another run's first row's time. -/
theorem mem_segsOfRuns (θ last : ℚ) :
    ∀ (cl : List (CRow × List CRow)) (seg : Seg), seg ∈ segsOfRuns θ last cl →
      ∃ run ∈ cl, θ ≤ runDelta run ∧ seg.1 = run.1.raw_phase ∧ seg.2.1 = run.1.time ∧
        (seg.2.2 = last ∨ ∃ run' ∈ cl, seg.2.2 = run'.1.time) := by
  intro cl
  induction cl with
  | nil => intro seg hseg; simp [segsOfRuns] at hseg
  | cons rc rest ih =>
    intro seg hseg
    rw [segsOfRuns] at hseg
    rcases List.mem_append.mp hseg with h | h
    · by_cases hq : θ ≤ runDelta rc
      · rw [if_pos hq] at h
        simp only [List.mem_singleton] at h
        refine ⟨rc, List.mem_cons_self rc rest, hq, by rw [h], by rw [h], ?_⟩
        match rest with
        | [] => exact Or.inl (by rw [h]; rfl)
        | rc' :: rest' =>
          exact Or.inr ⟨rc', List.mem_cons_of_mem rc (List.mem_cons_self rc' rest'),
            by rw [h]; rfl⟩
      · rw [if_neg hq] at h
        simp at h
    · obtain ⟨run, hmem, hq, h1, h2, h3⟩ := ih seg h
      refine ⟨run, List.mem_cons_of_mem rc hmem, hq, h1, h2, ?_⟩
      rcases h3 with h3 | ⟨run', hmem', h3⟩
      · exact Or.inl h3
      · exact Or.inr ⟨run', List.mem_cons_of_mem rc hmem', h3⟩

/-- C5: for every ordered row sequence (strictly increasing times) and
every threshold ≥ 0, a maximal run of consecutive rows sharing a label
whose accumulated `time_delta` is strictly below the threshold never
appears as a segment of the consolidator's output: no emitted segment
carries that run's label together with its start time (every emitted
segment stems from a run whose accumulated duration meets the threshold). -/
theorem c5_subthreshold_run_never_emitted (rows : List CRow) (θ : ℚ)
    (hθ : 0 ≤ θ)
    (hchain : List.Chain' (fun a b : CRow => a.time < b.time) rows)
    (run : CRow × List CRow) (hrun : run ∈ chunks rows)
    (hsub : runDelta run < θ) :
    ∀ seg ∈ consolidate_phases rows θ,
      ¬ (seg.1 = run.1.raw_phase ∧ seg.2.1 = run.1.time) := by
  intro seg hseg hand
  obtain ⟨h1, h2⟩ := hand
  rw [consolidate_phases_eq_segsOfRuns] at hseg
  obtain ⟨run', hmem', hq', hph, hst, -⟩ := mem_segsOfRuns θ _ _ seg hseg
  have hne : run' ≠ run := by
    intro h
    rw [h] at hq'
    exact absurd hq' (not_le.mpr hsub)
  haveI : IsTrans CRow (fun a b : CRow => a.time < b.time) :=
    ⟨fun _ _ _ h1 h2 => lt_trans h1 h2⟩
  have hp := List.chain'_iff_pairwise.mp hchain
  have hpc := chunks_heads_pairwise rows.length rows le_rfl hp
  have hpne : List.Pairwise
      (fun a b : CRow × List CRow => a.1.time ≠ b.1.time) (chunks rows) :=
    hpc.imp (fun h => ne_of_lt h)
  have hsymm : Symmetric
      (fun a b : CRow × List CRow => a.1.time ≠ b.1.time) :=
    fun _ _ h => Ne.symm h
  have := List.Pairwise.forall hsymm hpne hmem' hrun hne
  exact this (by rw [← hst, ← h2])

/-- Witness for the consolidator threshold property: a four-row sequence
with a half-second "B" flicker between two "A" runs, threshold 1. -/
theorem c5_witness :
    (0:ℚ) ≤ 1 ∧
    List.Chain' (fun a b : CRow => a.time < b.time)
      ([⟨0, "A", 0⟩, ⟨1, "A", 1⟩, ⟨3/2, "B", 1/2⟩, ⟨5/2, "A", 1⟩] : List CRow) ∧
    ((⟨3/2, "B", 1/2⟩ : CRow), ([] : List CRow)) ∈
      chunks ([⟨0, "A", 0⟩, ⟨1, "A", 1⟩, ⟨3/2, "B", 1/2⟩, ⟨5/2, "A", 1⟩] : List CRow) ∧
    runDelta ((⟨3/2, "B", 1/2⟩ : CRow), ([] : List CRow)) < 1 ∧
    ∀ seg ∈ consolidate_phases
        ([⟨0, "A", 0⟩, ⟨1, "A", 1⟩, ⟨3/2, "B", 1/2⟩, ⟨5/2, "A", 1⟩] : List CRow) 1,
      ¬ (seg.1 = ((⟨3/2, "B", 1/2⟩ : CRow) : CRow).raw_phase ∧
        seg.2.1 = ((⟨3/2, "B", 1/2⟩ : CRow) : CRow).time) := by
  have h0 : (0:ℚ) ≤ 1 := by norm_num
  have hc : List.Chain' (fun a b : CRow => a.time < b.time)
      ([⟨0, "A", 0⟩, ⟨1, "A", 1⟩, ⟨3/2, "B", 1/2⟩, ⟨5/2, "A", 1⟩] : List CRow) := by
    simp [List.chain'_cons]
    norm_num
  have hm : ((⟨3/2, "B", 1/2⟩ : CRow), ([] : List CRow)) ∈
      chunks ([⟨0, "A", 0⟩, ⟨1, "A", 1⟩, ⟨3/2, "B", 1/2⟩, ⟨5/2, "A", 1⟩] : List CRow) := by
    norm_num [chunks]
    norm_num [chunks]
    simp [chunks]
  have hs : runDelta ((⟨3/2, "B", 1/2⟩ : CRow), ([] : List CRow)) < 1 := by
    norm_num [runDelta, sumDelta]
  exact ⟨h0, hc, hm, hs,
    c5_subthreshold_run_never_emitted _ 1 h0 hc _ hm hs⟩

/-- When the final accumulated run qualifies, the last emitted segment is
the flushed one, whose end time is `last`. -/
theorem segsOfRuns_getLast (θ last : ℚ) :
    ∀ (cl : List (CRow × List CRow)) (h : cl ≠ []),
      θ ≤ runDelta (cl.getLast h) →
      (segsOfRuns θ last cl).getLast?.map (fun s => s.2.2) = some last := by
  intro cl
  induction cl with
  | nil => intro h; exact absurd rfl h
  | cons rc rest ih =>
    intro h hq
    cases rest with
    | nil =>
      rw [List.getLast_singleton] at hq
      simp [segsOfRuns, hq, headTimeD]
    | cons rc' rest' =>
      have hne' : rc' :: rest' ≠ [] := by simp
      rw [List.getLast_cons hne'] at hq
      have hrec := ih hne' hq
      rw [segsOfRuns, List.getLast?_append]
      obtain ⟨s, hs1, hs2⟩ :
          ∃ s, (segsOfRuns θ last (rc' :: rest')).getLast? = some s ∧ s.2.2 = last := by
        cases hx : (segsOfRuns θ last (rc' :: rest')).getLast? with
        | none => rw [hx] at hrec; simp at hrec
        | some s =>
          rw [hx] at hrec
          simp at hrec
          exact ⟨s, rfl, hrec⟩
      rw [hs1]
      simp [hs2]

/-- In a `≤`-pairwise list, every element is at most the last element. -/
theorem pairwise_le_getLast :
    ∀ (l : List ℚ) (h : l ≠ []), l.Pairwise (· ≤ ·) → ∀ x ∈ l, x ≤ l.getLast h := by
  intro l
  induction l with
  | nil => intro h; exact absurd rfl h
  | cons a l' ih =>
    intro h hp x hx
    rcases List.mem_cons.mp hx with rfl | hx'
    · cases l' with
      | nil => simp [List.getLast_singleton]
      | cons b l'' =>
        rw [List.getLast_cons (by simp : b :: l'' ≠ [])]
        exact (List.pairwise_cons.mp hp).1 _ (List.getLast_mem (by simp))
    · cases l' with
      | nil => simp at hx'
      | cons b l'' =>
        rw [List.getLast_cons (by simp : b :: l'' ≠ [])]
        exact ih (by simp) (List.pairwise_cons.mp hp).2 x hx'

/-- Every row's time is at most `lastTimeOf` when times are nondecreasing. -/
theorem time_le_lastTimeOf (rows : List CRow) (hne : rows ≠ [])
    (hp : rows.Pairwise (fun a b : CRow => a.time ≤ b.time)) :
    ∀ r ∈ rows, r.time ≤ lastTimeOf rows := by
  intro r hr
  have hmapne : rows.map CRow.time ≠ [] := by
    simp [List.map_eq_nil]
    exact hne
  have hpm : (rows.map CRow.time).Pairwise (· ≤ ·) :=
    (List.pairwise_map).mpr hp
  have hmem : r.time ∈ rows.map CRow.time := List.mem_map_of_mem _ hr
  have := pairwise_le_getLast _ hmapne hpm r.time hmem
  rw [lastTimeOf, List.getLastD_eq_getLast?, List.getLast?_eq_getLast _ hmapne]
  exact this

/-- The last row's time is `lastTimeOf`. -/
theorem getLastD_time_eq_lastTimeOf (rows : List CRow) (hne : rows ≠ []) :
    (rows.getLastD default).time = lastTimeOf rows := by
  rw [lastTimeOf, List.getLastD_eq_getLast?, List.getLastD_eq_getLast?,
    List.getLast?_eq_getLast _ hne, List.getLast?_eq_getLast _ (by simp [List.map_eq_nil]; exact hne)]
  simp [List.getLast_map]

/-- C10: the consolidator's final flushed segment ends at the last row's
time, every emitted segment's end is at most the last row's time, and since
per-segment aggregation selects rows by the half-open window
`start ≤ time < end`, the last surviving row is selected by no segment's
window — so (in `phaseEntry`) its charge draw enters no per-segment or
per-phase aggregate although `total_mAh` counts it. -/
theorem c10_last_row_outside_every_segment (rows : List CRow) (θ : ℚ)
    (hne : rows ≠ [])
    (hchain : List.Chain' (fun a b : CRow => a.time < b.time) rows)
    (hflush : θ ≤ runDelta ((chunks rows).getLastD default)) :
    (∀ seg ∈ consolidate_phases rows θ, seg.2.2 ≤ lastTimeOf rows) ∧
    (∀ seg ∈ consolidate_phases rows θ,
      rows.getLastD default ∉
        rows.filter (fun r => seg.2.1 ≤ r.time ∧ r.time < seg.2.2)) ∧
    (consolidate_phases rows θ).getLast?.map (fun s => s.2.2) =
      some (lastTimeOf rows) := by
  haveI : IsTrans CRow (fun a b : CRow => a.time < b.time) :=
    ⟨fun _ _ _ h1 h2 => lt_trans h1 h2⟩
  have hp := List.chain'_iff_pairwise.mp hchain
  have hple : rows.Pairwise (fun a b : CRow => a.time ≤ b.time) :=
    hp.imp (fun h => le_of_lt h)
  have hends : ∀ seg ∈ consolidate_phases rows θ, seg.2.2 ≤ lastTimeOf rows := by
    intro seg hseg
    rw [consolidate_phases_eq_segsOfRuns] at hseg
    obtain ⟨-, -, -, -, -, hend⟩ := mem_segsOfRuns θ _ _ seg hseg
    rcases hend with hend | ⟨run', hmem', hend⟩
    · rw [hend]
    · rw [hend]
      exact time_le_lastTimeOf rows hne hple run'.1
        (mem_chunks_head_mem rows.length rows le_rfl run' hmem')
  refine ⟨hends, ?_, ?_⟩
  · intro seg hseg hmem
    rw [List.mem_filter] at hmem
    have hpred := of_decide_eq_true hmem.2
    have hTlt : lastTimeOf rows < seg.2.2 := by
      rw [← getLastD_time_eq_lastTimeOf rows hne]
      exact hpred.2
    exact absurd hTlt (not_lt.mpr (hends seg hseg))
  · rw [consolidate_phases_eq_segsOfRuns]
    have hcne : chunks rows ≠ [] := by
      obtain ⟨r, rs, rfl⟩ := List.exists_cons_of_ne_nil hne
      rw [chunks]
      simp
    have hflush' : θ ≤ runDelta ((chunks rows).getLast hcne) := by
      rw [List.getLastD_eq_getLast?, List.getLast?_eq_getLast _ hcne] at hflush
      exact hflush
    exact segsOfRuns_getLast θ _ (chunks rows) hcne hflush'

/-- Witness for the last-row exclusion: a three-row all-"A" flight whose
final run qualifies. -/
theorem c10_witness :
    (([⟨0, "A", 0⟩, ⟨1, "A", 1⟩, ⟨2, "A", 1⟩] : List CRow) ≠ []) ∧
    List.Chain' (fun a b : CRow => a.time < b.time)
      ([⟨0, "A", 0⟩, ⟨1, "A", 1⟩, ⟨2, "A", 1⟩] : List CRow) ∧
    (1 : ℚ) ≤ runDelta
      ((chunks ([⟨0, "A", 0⟩, ⟨1, "A", 1⟩, ⟨2, "A", 1⟩] : List CRow)).getLastD default) ∧
    ((∀ seg ∈ consolidate_phases ([⟨0, "A", 0⟩, ⟨1, "A", 1⟩, ⟨2, "A", 1⟩] : List CRow) 1,
        seg.2.2 ≤ lastTimeOf ([⟨0, "A", 0⟩, ⟨1, "A", 1⟩, ⟨2, "A", 1⟩] : List CRow)) ∧
      (∀ seg ∈ consolidate_phases ([⟨0, "A", 0⟩, ⟨1, "A", 1⟩, ⟨2, "A", 1⟩] : List CRow) 1,
        ([⟨0, "A", 0⟩, ⟨1, "A", 1⟩, ⟨2, "A", 1⟩] : List CRow).getLastD default ∉
          ([⟨0, "A", 0⟩, ⟨1, "A", 1⟩, ⟨2, "A", 1⟩] : List CRow).filter
            (fun r => seg.2.1 ≤ r.time ∧ r.time < seg.2.2)) ∧
      (consolidate_phases ([⟨0, "A", 0⟩, ⟨1, "A", 1⟩, ⟨2, "A", 1⟩] : List CRow) 1).getLast?.map
          (fun s => s.2.2) =
        some (lastTimeOf ([⟨0, "A", 0⟩, ⟨1, "A", 1⟩, ⟨2, "A", 1⟩] : List CRow))) := by
  have hne : (([⟨0, "A", 0⟩, ⟨1, "A", 1⟩, ⟨2, "A", 1⟩] : List CRow) ≠ []) := by simp
  have hc : List.Chain' (fun a b : CRow => a.time < b.time)
      ([⟨0, "A", 0⟩, ⟨1, "A", 1⟩, ⟨2, "A", 1⟩] : List CRow) := by
    simp [List.chain'_cons]
    try norm_num
  have hf : (1 : ℚ) ≤ runDelta
      ((chunks ([⟨0, "A", 0⟩, ⟨1, "A", 1⟩, ⟨2, "A", 1⟩] : List CRow)).getLastD default) := by
    norm_num [chunks, runDelta, sumDelta]
  exact ⟨hne, hc, hf, c10_last_row_outside_every_segment _ 1 hne hc hf⟩

/-- Times of rows produced by `deltasOn` are the input times. -/
theorem map_time_deltasOn :
    ∀ (l : List (ℚ × String)) (prev : ℚ),
      (deltasOn prev l).map CRow.time = l.map Prod.fst := by
  intro l
  induction l with
  | nil => intro prev; rfl
  | cons tp rest ih =>
    intro prev
    obtain ⟨t, p⟩ := tp
    simp [deltasOn, ih]

/-- Times of rows produced by `timedToRows` are the input times. -/
theorem map_time_timedToRows (l : List (ℚ × String)) :
    (timedToRows l).map CRow.time = l.map Prod.fst := by
  cases l with
  | nil => rfl
  | cons tp rest =>
    obtain ⟨t, p⟩ := tp
    simp [timedToRows, map_time_deltasOn]

/-- Unfolding of the rendering on a cons. -/
theorem renderSegs_cons (p : String) (s e : ℚ) (rest : List Seg) :
    renderSegs ((p, s, e) :: rest) = (s, p) :: (e, p) :: renderSegs rest := by
  simp [renderSegs]

/-- The last rendered time of a segment list is its last end time. -/
theorem map_fst_render_getLastD :
    ∀ (segs : List Seg) (d : ℚ),
      ((renderSegs segs).map Prod.fst).getLastD d = lastEndD d segs := by
  intro segs
  induction segs with
  | nil => intro d; rfl
  | cons sg rest ih =>
    intro d
    obtain ⟨p, s, e⟩ := sg
    rw [renderSegs_cons, List.map_cons, List.map_cons, List.getLastD_cons,
      List.getLastD_cons, ih e]
    simp only [lastEndD, List.map_cons, List.getLastD_cons]

/-- The last row time of the rendering is the last segment end. -/
theorem lastTimeOf_segRows (p : String) (s e : ℚ) (rest : List Seg) :
    lastTimeOf (segRows ((p, s, e) :: rest)) = lastEndD e rest := by
  rw [lastTimeOf, segRows, map_time_timedToRows, map_fst_render_getLastD]
  simp only [lastEndD, List.map_cons, List.getLastD_cons]

/-- Core induction for the amended idempotence claim: with the state seeded
at a segment's boundaries, consolidating the rendered remainder reproduces
the segment list, provided adjacent labels differ, segments are contiguous
and every span meets the threshold. -/
theorem c6_go (θ : ℚ) :
    ∀ (segs : List Seg) (p : String) (s e : ℚ),
      θ ≤ e - s →
      List.Chain' (fun a b : Seg => a.1 ≠ b.1) ((p, s, e) :: segs) →
      List.Chain' (fun a b : Seg => a.2.2 = b.2.1) ((p, s, e) :: segs) →
      (∀ x ∈ segs, θ ≤ x.2.2 - x.2.1) →
      consolidateAux θ (lastEndD e segs) p s (e - s) (deltasOn e (renderSegs segs)) =
        (p, s, e) :: segs := by
  intro segs
  induction segs with
  | nil =>
    intro p s e hθ _ _ _
    simp [renderSegs, deltasOn, consolidateAux, lastEndD, hθ]
  | cons sg2 rest ih =>
    obtain ⟨p2, s2, e2⟩ := sg2
    intro p s e hθ hlbl hcont hspan
    have hpne : ¬ p2 = p :=
      fun h => absurd h.symm (List.chain'_cons.mp hlbl).1
    have he : e = s2 := (List.chain'_cons.mp hcont).1
    subst he
    have hlbl2 := (List.chain'_cons.mp hlbl).2
    have hcont2 := (List.chain'_cons.mp hcont).2
    have hspan2 : θ ≤ e2 - e := by
      have := hspan _ (List.mem_cons_self (p2, e, e2) rest)
      simpa using this
    have hspanrest : ∀ x ∈ rest, θ ≤ x.2.2 - x.2.1 :=
      fun x hx => hspan x (List.mem_cons_of_mem _ hx)
    have hlast : lastEndD e ((p2, e, e2) :: rest) = lastEndD e2 rest := by
      simp only [lastEndD, List.map_cons, List.getLastD_cons]
    rw [hlast, renderSegs_cons]
    show consolidateAux θ (lastEndD e2 rest) p s (e - s)
        (⟨e, p2, e - e⟩ :: ⟨e2, p2, e2 - e⟩ :: deltasOn e2 (renderSegs rest)) = _
    have hstep1 : consolidateAux θ (lastEndD e2 rest) p s (e - s)
        (⟨e, p2, e - e⟩ :: ⟨e2, p2, e2 - e⟩ :: deltasOn e2 (renderSegs rest)) =
        (p, s, e) :: consolidateAux θ (lastEndD e2 rest) p2 e (e - e)
          (⟨e2, p2, e2 - e⟩ :: deltasOn e2 (renderSegs rest)) := by
      simp [consolidateAux, hpne, hθ]
    have hstep2 : consolidateAux θ (lastEndD e2 rest) p2 e (e - e)
        (⟨e2, p2, e2 - e⟩ :: deltasOn e2 (renderSegs rest)) =
        consolidateAux θ (lastEndD e2 rest) p2 e (e - e + (e2 - e))
          (deltasOn e2 (renderSegs rest)) := by
      simp [consolidateAux]
    have harith : e - e + (e2 - e) = e2 - e := by ring
    rw [hstep1, hstep2, harith, ih p2 e e2 hspan2 hlbl2 hcont2 hspanrest]

/-- C6 (amended): re-running consolidation on a segment list — rendered as
uniform-label boundary rows with recomputed deltas — reproduces exactly the
same segments, provided consecutive segments carry distinct labels, the
segments are contiguous (each end is the next start), and every segment's
span meets the threshold.  The unamended claim fails: see the
counterexample, where two same-label segments separated by a discarded
flicker merge on the re-run. -/
theorem c6_amended_idempotence (segs : List Seg) (θ : ℚ)
    (hne : segs ≠ [])
    (hlbl : List.Chain' (fun a b : Seg => a.1 ≠ b.1) segs)
    (hcont : List.Chain' (fun a b : Seg => a.2.2 = b.2.1) segs)
    (hspan : ∀ x ∈ segs, θ ≤ x.2.2 - x.2.1) :
    consolidate_phases (segRows segs) θ = segs := by
  obtain ⟨sg, rest, rfl⟩ := List.exists_cons_of_ne_nil hne
  obtain ⟨p, s, e⟩ := sg
  have hθ1 : θ ≤ e - s := by
    have := hspan _ (List.mem_cons_self (p, s, e) rest)
    simpa using this
  have hspanrest : ∀ x ∈ rest, θ ≤ x.2.2 - x.2.1 :=
    fun x hx => hspan x (List.mem_cons_of_mem _ hx)
  have hrows : segRows ((p, s, e) :: rest) =
      ⟨s, p, 0⟩ :: ⟨e, p, e - s⟩ :: deltasOn e (renderSegs rest) := by
    rw [segRows, renderSegs_cons]
    simp [timedToRows, deltasOn]
  have hlt : lastTimeOf (segRows ((p, s, e) :: rest)) = lastEndD e rest :=
    lastTimeOf_segRows p s e rest
  rw [hrows] at hlt
  rw [hrows]
  show consolidateAux θ
      (lastTimeOf (⟨s, p, 0⟩ :: ⟨e, p, e - s⟩ :: deltasOn e (renderSegs rest)))
      p s 0 (⟨s, p, 0⟩ :: ⟨e, p, e - s⟩ :: deltasOn e (renderSegs rest)) = _
  rw [hlt]
  have hstep : consolidateAux θ (lastEndD e rest) p s 0
      (⟨s, p, 0⟩ :: ⟨e, p, e - s⟩ :: deltasOn e (renderSegs rest)) =
      consolidateAux θ (lastEndD e rest) p s (e - s)
        (deltasOn e (renderSegs rest)) := by
    simp [consolidateAux]
  rw [hstep]
  exact c6_go θ rest p s e hθ1 hlbl hcont hspanrest

/-- Witness for the amended idempotence: two contiguous segments with
distinct labels and spans meeting the threshold. -/
theorem c6_amended_witness :
    (([("A", 0, 2), ("B", 2, 3)] : List Seg) ≠ []) ∧
    List.Chain' (fun a b : Seg => a.1 ≠ b.1) ([("A", 0, 2), ("B", 2, 3)] : List Seg) ∧
    List.Chain' (fun a b : Seg => a.2.2 = b.2.1) ([("A", 0, 2), ("B", 2, 3)] : List Seg) ∧
    (∀ x ∈ ([("A", 0, 2), ("B", 2, 3)] : List Seg), (1:ℚ) ≤ x.2.2 - x.2.1) ∧
    consolidate_phases (segRows ([("A", 0, 2), ("B", 2, 3)] : List Seg)) 1 =
      ([("A", 0, 2), ("B", 2, 3)] : List Seg) := by
  have hne : (([("A", 0, 2), ("B", 2, 3)] : List Seg) ≠ []) := by simp
  have hlbl : List.Chain' (fun a b : Seg => a.1 ≠ b.1)
      ([("A", 0, 2), ("B", 2, 3)] : List Seg) := by
    simp [List.chain'_cons]
  have hcont : List.Chain' (fun a b : Seg => a.2.2 = b.2.1)
      ([("A", 0, 2), ("B", 2, 3)] : List Seg) := by
    simp [List.chain'_cons]
  have hspan : ∀ x ∈ ([("A", 0, 2), ("B", 2, 3)] : List Seg), (1:ℚ) ≤ x.2.2 - x.2.1 := by
    intro x hx
    rcases List.mem_cons.mp hx with rfl | hx'
    · norm_num
    · rcases List.mem_cons.mp hx' with rfl | hx''
      · norm_num
      · simp at hx''
  exact ⟨hne, hlbl, hcont, hspan,
    c6_amended_idempotence _ 1 hne hlbl hcont hspan⟩

/-- Counterexample to C6 as stated: for the row sequence A(1 s), A(1 s),
B(0.5 s flicker), A(1 s), A(1 s) with threshold 1, consolidation emits two
"A" segments (the sub-threshold "B" run is dropped), and re-running
consolidation on those segments' uniform-label boundary rows merges them
into a single "A" segment — the re-run does not reproduce the output. -/
theorem c6_counterexample :
    consolidate_phases
        (segRows (consolidate_phases
          ([⟨1, "A", 1⟩, ⟨2, "A", 1⟩, ⟨5/2, "B", 1/2⟩, ⟨7/2, "A", 1⟩, ⟨9/2, "A", 1⟩] :
            List CRow) 1)) 1 ≠
      consolidate_phases
        ([⟨1, "A", 1⟩, ⟨2, "A", 1⟩, ⟨5/2, "B", 1/2⟩, ⟨7/2, "A", 1⟩, ⟨9/2, "A", 1⟩] :
          List CRow) 1 := by
  have h1 : consolidate_phases
      ([⟨1, "A", 1⟩, ⟨2, "A", 1⟩, ⟨5/2, "B", 1/2⟩, ⟨7/2, "A", 1⟩, ⟨9/2, "A", 1⟩] :
        List CRow) 1 = [("A", 1, 5/2), ("A", 7/2, 9/2)] := by
    norm_num [consolidate_phases, consolidateAux, lastTimeOf]
    simp
  have h2 : consolidate_phases (segRows [("A", 1, 5/2), ("A", 7/2, 9/2)]) 1 =
      [("A", 1, 9/2)] := by
    norm_num [segRows, renderSegs, timedToRows, deltasOn, consolidate_phases,
      consolidateAux, lastTimeOf]
  rw [h1, h2]
  simp

/-- Element extracted from a `getLast?` is a member. -/
theorem mem_of_getLast?_eq {α : Type} (l : List α) (a : α) (h : l.getLast? = some a) :
    a ∈ l := by
  obtain ⟨hn, ha⟩ := List.mem_getLast?_eq_getLast (show a ∈ l.getLast? from h)
  rw [ha]
  exact List.getLast_mem hn

/-- In a strictly time-sorted battery list, the last element has the
largest time. -/
theorem getLast?_time_max :
    ∀ (l : List BatRow), l.Pairwise (fun a b : BatRow => a.time < b.time) →
      ∀ b, l.getLast? = some b → ∀ y ∈ l, y.time ≤ b.time := by
  intro l
  induction l with
  | nil => intro _ b hb; simp at hb
  | cons a l' ih =>
    intro hp b hb y hy
    cases l' with
    | nil =>
      simp at hb
      have hya : y = a := List.mem_singleton.mp hy
      rw [hya, hb]
    | cons c l'' =>
      rw [List.getLast?_cons_cons] at hb
      have hb_mem : b ∈ c :: l'' := mem_of_getLast?_eq _ _ hb
      rcases List.mem_cons.mp hy with rfl | hy'
      · exact le_of_lt ((List.pairwise_cons.mp hp).1 b hb_mem)
      · exact ih (List.pairwise_cons.mp hp).2 b hb y hy'

/-- In a strictly time-sorted battery list, the head has the least time. -/
theorem head?_time_min (l : List BatRow)
    (hp : l.Pairwise (fun a b : BatRow => a.time < b.time))
    (f : BatRow) (hf : l.head? = some f) : ∀ y ∈ l, f.time ≤ y.time := by
  intro y hy
  cases l with
  | nil => simp at hf
  | cons a l' =>
    simp at hf
    subst hf
    rcases List.mem_cons.mp hy with rfl | hy'
    · exact le_refl _
    · exact le_of_lt ((List.pairwise_cons.mp hp).1 y hy')

/-- The backward candidate is a battery row with time at most `t`. -/
theorem findBwd_le (t : ℚ) (bs : List BatRow) (b : BatRow)
    (hb : findBwd t bs = some b) : b ∈ bs ∧ b.time ≤ t := by
  have hmem := mem_of_getLast?_eq _ _ hb
  rw [List.mem_filter] at hmem
  exact ⟨hmem.1, of_decide_eq_true hmem.2⟩

/-- The backward candidate has the largest time among rows with time ≤ t. -/
theorem findBwd_max (t : ℚ) (bs : List BatRow)
    (hp : bs.Pairwise (fun a b : BatRow => a.time < b.time))
    (b : BatRow) (hb : findBwd t bs = some b) :
    ∀ y ∈ bs, y.time ≤ t → y.time ≤ b.time := by
  intro y hy hyt
  have hpf : (bs.filter (fun x => x.time ≤ t)).Pairwise
      (fun a b : BatRow => a.time < b.time) :=
    List.Pairwise.sublist (List.filter_sublist bs) hp
  apply getLast?_time_max _ hpf b hb
  rw [List.mem_filter]
  exact ⟨hy, decide_eq_true hyt⟩

/-- A missing backward candidate means every battery time exceeds `t`. -/
theorem findBwd_none (t : ℚ) (bs : List BatRow) (h : findBwd t bs = none) :
    ∀ y ∈ bs, t < y.time := by
  intro y hy
  have hnil : bs.filter (fun x => x.time ≤ t) = [] :=
    List.getLast?_eq_none_iff.mp h
  have := List.filter_eq_nil_iff.mp hnil y hy
  simp at this
  exact this

/-- The forward candidate is a battery row with time at least `t`. -/
theorem findFwd_ge (t : ℚ) (bs : List BatRow) (f : BatRow)
    (hf : findFwd t bs = some f) : f ∈ bs ∧ t ≤ f.time := by
  have hmem := List.mem_of_mem_head? (show f ∈ (bs.filter (fun x => t ≤ x.time)).head? from hf)
  rw [List.mem_filter] at hmem
  exact ⟨hmem.1, of_decide_eq_true hmem.2⟩

/-- The forward candidate has the least time among rows with time ≥ t. -/
theorem findFwd_min (t : ℚ) (bs : List BatRow)
    (hp : bs.Pairwise (fun a b : BatRow => a.time < b.time))
    (f : BatRow) (hf : findFwd t bs = some f) :
    ∀ y ∈ bs, t ≤ y.time → f.time ≤ y.time := by
  intro y hy hyt
  have hpf : (bs.filter (fun x => t ≤ x.time)).Pairwise
      (fun a b : BatRow => a.time < b.time) :=
    List.Pairwise.sublist (List.filter_sublist bs) hp
  apply head?_time_min _ hpf f hf
  rw [List.mem_filter]
  exact ⟨hy, decide_eq_true hyt⟩

/-- A missing forward candidate means every battery time is below `t`. -/
theorem findFwd_none (t : ℚ) (bs : List BatRow) (h : findFwd t bs = none) :
    ∀ y ∈ bs, y.time < t := by
  intro y hy
  have hnil : bs.filter (fun x => t ≤ x.time) = [] :=
    List.head?_eq_none_iff.mp h
  have := List.filter_eq_nil_iff.mp hnil y hy
  simp at this
  exact this

/-- The nearest join always finds a partner in a nonempty battery list. -/
theorem asofNearest_isSome (t : ℚ) (bs : List BatRow) (hne : bs ≠ []) :
    ∃ b, asofNearest t bs = some b := by
  cases hbw : findBwd t bs with
  | some b =>
    cases hfw : findFwd t bs with
    | some f => exact ⟨if t - b.time ≤ f.time - t then b else f, by
        simp [asofNearest, hbw, hfw]⟩
    | none => exact ⟨b, by simp [asofNearest, hbw, hfw]⟩
  | none =>
    cases hfw : findFwd t bs with
    | some f => exact ⟨f, by simp [asofNearest, hbw, hfw]⟩
    | none =>
      exfalso
      obtain ⟨y, rest, rfl⟩ := List.exists_cons_of_ne_nil hne
      have h1 := findBwd_none t _ hbw y (List.mem_cons_self y rest)
      have h2 := findFwd_none t _ hfw y (List.mem_cons_self y rest)
      exact absurd h1 (not_lt.mpr (le_of_lt h2))

/-- Correctness of the nearest join on a strictly time-sorted battery list:
the chosen row is a member, it minimizes the time distance, and any other
row achieving the minimum has a time at least the chosen one's (exact ties
resolve to the earlier battery row). -/
theorem asofNearest_spec (t : ℚ) (bs : List BatRow)
    (hp : bs.Pairwise (fun a b : BatRow => a.time < b.time))
    (b : BatRow) (hb : asofNearest t bs = some b) :
    b ∈ bs ∧ (∀ y ∈ bs, |t - b.time| ≤ |t - y.time|) ∧
      (∀ y ∈ bs, |t - y.time| = |t - b.time| → b.time ≤ y.time) := by
  unfold asofNearest at hb
  cases hbw : findBwd t bs with
  | some bb =>
    cases hfw : findFwd t bs with
    | some ff =>
      rw [hbw, hfw] at hb
      simp only [Option.some.injEq] at hb
      obtain ⟨hbbmem, hbble⟩ := findBwd_le t bs bb hbw
      obtain ⟨hffmem, hffge⟩ := findFwd_ge t bs ff hfw
      by_cases hcond : t - bb.time ≤ ff.time - t
      · rw [if_pos hcond] at hb
        subst hb
        have habsb : |t - bb.time| = t - bb.time := abs_of_nonneg (by linarith)
        refine ⟨hbbmem, ?_, ?_⟩
        · intro y hy
          rcases le_total y.time t with hyt | hyt
          · have habsy : |t - y.time| = t - y.time := abs_of_nonneg (by linarith)
            have := findBwd_max t bs hp bb hbw y hy hyt
            rw [habsy, habsb]
            linarith
          · have habsy : |t - y.time| = y.time - t := by
              rw [abs_sub_comm]
              exact abs_of_nonneg (by linarith)
            have := findFwd_min t bs hp ff hfw y hy hyt
            rw [habsy, habsb]
            linarith
        · intro y hy htie
          rcases le_total y.time t with hyt | hyt
          · have habsy : |t - y.time| = t - y.time := abs_of_nonneg (by linarith)
            rw [habsy, habsb] at htie
            linarith
          · linarith
      · rw [if_neg hcond] at hb
        subst hb
        push_neg at hcond
        have habsf : |t - ff.time| = ff.time - t := by
          rw [abs_sub_comm]
          exact abs_of_nonneg (by linarith)
        refine ⟨hffmem, ?_, ?_⟩
        · intro y hy
          rcases le_total y.time t with hyt | hyt
          · have habsy : |t - y.time| = t - y.time := abs_of_nonneg (by linarith)
            have := findBwd_max t bs hp bb hbw y hy hyt
            rw [habsy, habsf]
            linarith
          · have habsy : |t - y.time| = y.time - t := by
              rw [abs_sub_comm]
              exact abs_of_nonneg (by linarith)
            have := findFwd_min t bs hp ff hfw y hy hyt
            rw [habsy, habsf]
            linarith
        · intro y hy htie
          rcases le_total y.time t with hyt | hyt
          · have habsy : |t - y.time| = t - y.time := abs_of_nonneg (by linarith)
            have := findBwd_max t bs hp bb hbw y hy hyt
            rw [habsy, habsf] at htie
            linarith
          · have habsy : |t - y.time| = y.time - t := by
              rw [abs_sub_comm]
              exact abs_of_nonneg (by linarith)
            rw [habsy, habsf] at htie
            linarith
    | none =>
      rw [hbw, hfw] at hb
      simp only [Option.some.injEq] at hb
      subst hb
      obtain ⟨hbbmem, hbble⟩ := findBwd_le t bs bb hbw
      have habsb : |t - bb.time| = t - bb.time := abs_of_nonneg (by linarith)
      have hall := findFwd_none t bs hfw
      refine ⟨hbbmem, ?_, ?_⟩
      · intro y hy
        have hyt : y.time < t := hall y hy
        have habsy : |t - y.time| = t - y.time := abs_of_nonneg (by linarith)
        have := findBwd_max t bs hp bb hbw y hy (le_of_lt hyt)
        rw [habsy, habsb]
        linarith
      · intro y hy htie
        have hyt : y.time < t := hall y hy
        have habsy : |t - y.time| = t - y.time := abs_of_nonneg (by linarith)
        rw [habsy, habsb] at htie
        linarith
  | none =>
    cases hfw : findFwd t bs with
    | some ff =>
      rw [hbw, hfw] at hb
      simp only [Option.some.injEq] at hb
      subst hb
      obtain ⟨hffmem, hffge⟩ := findFwd_ge t bs ff hfw
      have habsf : |t - ff.time| = ff.time - t := by
        rw [abs_sub_comm]
        exact abs_of_nonneg (by linarith)
      have hall := findBwd_none t bs hbw
      refine ⟨hffmem, ?_, ?_⟩
      · intro y hy
        have hyt : t < y.time := hall y hy
        have habsy : |t - y.time| = y.time - t := by
          rw [abs_sub_comm]
          exact abs_of_nonneg (by linarith)
        have := findFwd_min t bs hp ff hfw y hy (le_of_lt hyt)
        rw [habsy, habsf]
        linarith
      · intro y hy htie
        have hyt : t < y.time := hall y hy
        have habsy : |t - y.time| = y.time - t := by
          rw [abs_sub_comm]
          exact abs_of_nonneg (by linarith)
        rw [habsy, habsf] at htie
        linarith
    | none =>
      rw [hbw, hfw] at hb
      exact absurd hb (by simp)

/-- Sorting an already strictly sorted list is the identity. -/
theorem sortByKey_of_chain_lt {α : Type} (key : α → ℚ) :
    ∀ l : List α, List.Chain' (fun a b => key a < key b) l → sortByKey key l = l := by
  intro l
  induction l with
  | nil => intro _; rfl
  | cons a l' ih =>
    intro hc
    show insertByKey key a (sortByKey key l') = a :: l'
    rw [ih (List.Chain'.tail hc)]
    cases l' with
    | nil => rfl
    | cons b l'' =>
      have hab : key a < key b := (List.chain'_cons.mp hc).1
      simp [insertByKey, hab]

/-- Length is preserved by `deltasFrom`. -/
theorem length_deltasFrom : ∀ (l : List ARow) (prev : ℚ),
    (deltasFrom prev l).length = l.length := by
  intro l
  induction l with
  | nil => intro prev; rfl
  | cons r rs ih => intro prev; simp [deltasFrom, ih]

/-- Length is preserved by `setDeltas`. -/
theorem length_setDeltas (l : List ARow) : (setDeltas l).length = l.length := by
  cases l with
  | nil => rfl
  | cons r rs => simp [setDeltas, length_deltasFrom]

/-- Times are preserved by `deltasFrom`. -/
theorem map_time_deltasFrom : ∀ (l : List ARow) (prev : ℚ),
    (deltasFrom prev l).map (fun r : Row => r.time) = l.map (fun a : ARow => a.time) := by
  intro l
  induction l with
  | nil => intro prev; rfl
  | cons r rs ih => intro prev; simp [deltasFrom, ih]

/-- Times are preserved by `setDeltas`. -/
theorem map_time_setDeltas (l : List ARow) :
    (setDeltas l).map (fun r : Row => r.time) = l.map (fun a : ARow => a.time) := by
  cases l with
  | nil => rfl
  | cons r rs => simp [setDeltas, map_time_deltasFrom]

/-- Rows of `deltasFrom` come from the input aligned rows. -/
theorem mem_deltasFrom : ∀ (l : List ARow) (prev : ℚ) (r : Row),
    r ∈ deltasFrom prev l → r.toARow ∈ l := by
  intro l
  induction l with
  | nil => intro prev r h; simp [deltasFrom] at h
  | cons a rs ih =>
    intro prev r h
    rw [deltasFrom] at h
    rcases List.mem_cons.mp h with rfl | h'
    · exact List.mem_cons_self _ _
    · exact List.mem_cons_of_mem _ (ih a.time r h')

/-- Rows of `setDeltas` come from the input aligned rows. -/
theorem mem_setDeltas (l : List ARow) (r : Row) (h : r ∈ setDeltas l) :
    r.toARow ∈ l := by
  cases l with
  | nil => simp [setDeltas] at h
  | cons a rs =>
    rw [setDeltas] at h
    rcases List.mem_cons.mp h with rfl | h'
    · exact List.mem_cons_self _ _
    · exact List.mem_cons_of_mem _ (mem_deltasFrom rs a.time r h')

/-- The merged rows carry exactly the motion times. -/
theorem map_time_mergeRows (M : List MotRow) (B : List BatRow) :
    (mergeRows M B).map (fun a : ARow => a.time) = M.map (fun m : MotRow => m.time) := by
  simp only [mergeRows, List.map_map]
  rfl

/-- Normalization keeps the motion timestamps strictly increasing. -/
theorem normMotion_chain (ms : List MotionSample)
    (h : List.Chain' (fun a b : MotionSample => a.timestamp < b.timestamp) ms) :
    List.Chain' (fun a b : MotRow => a.time < b.time) (normMotion ms) := by
  unfold normMotion
  rw [List.chain'_map]
  refine List.Chain'.imp ?_ h
  intro a b hab
  have h6 : (0:ℚ) < 1e6 := by norm_num
  show (a.timestamp - _) / 1e6 < (b.timestamp - _) / 1e6
  rw [div_lt_div_iff_of_pos_right h6, sub_lt_sub_iff_right]
  exact hab

/-- Normalization keeps the battery timestamps strictly increasing. -/
theorem normBattery_chain (bs : List BatterySample)
    (h : List.Chain' (fun a b : BatterySample => a.timestamp < b.timestamp) bs) :
    List.Chain' (fun a b : BatRow => a.time < b.time) (normBattery bs) := by
  unfold normBattery
  rw [List.chain'_map]
  refine List.Chain'.imp ?_ h
  intro a b hab
  have h6 : (0:ℚ) < 1e6 := by norm_num
  show (a.timestamp - _) / 1e6 < (b.timestamp - _) / 1e6
  rw [div_lt_div_iff_of_pos_right h6, sub_lt_sub_iff_right]
  exact hab

/-- C2: for motion and battery series with at least one sample each and
strictly increasing timestamps, the aligned frame has exactly one row per
motion sample, its time column is nondecreasing, and every row carries the
voltage and current of a battery row that minimizes the normalized time
distance to the row's time, exact ties resolved to the earlier battery
sample. -/
theorem c2_aligner (ms : List MotionSample) (bs : List BatterySample)
    (hm : ms ≠ []) (hb : bs ≠ [])
    (hmc : List.Chain' (fun a b : MotionSample => a.timestamp < b.timestamp) ms)
    (hbc : List.Chain' (fun a b : BatterySample => a.timestamp < b.timestamp) bs) :
    (df_combined ms bs).length = ms.length ∧
    List.Chain' (· ≤ ·) ((df_combined ms bs).map (fun r : Row => r.time)) ∧
    ∀ r ∈ df_combined ms bs, ∃ b ∈ normBattery bs,
      r.voltage_v = b.voltage_v ∧ r.current_a = b.current_a ∧
      (∀ y ∈ normBattery bs, |r.time - b.time| ≤ |r.time - y.time|) ∧
      (∀ y ∈ normBattery bs, |r.time - y.time| = |r.time - b.time| → b.time ≤ y.time) := by
  have hMchain := normMotion_chain ms hmc
  have hBchain := normBattery_chain bs hbc
  have hsortM : sortByKey MotRow.time (normMotion ms) = normMotion ms :=
    sortByKey_of_chain_lt MotRow.time _ hMchain
  have hsortB : sortByKey BatRow.time (normBattery bs) = normBattery bs :=
    sortByKey_of_chain_lt BatRow.time _ hBchain
  have hdf : df_combined ms bs =
      setDeltas (mergeRows (normMotion ms) (normBattery bs)) := by
    rw [df_combined, hsortM, hsortB]
  have hBne : normBattery bs ≠ [] := by
    unfold normBattery
    simp [List.map_eq_nil_iff]
    exact hb
  haveI : IsTrans BatRow (fun a b : BatRow => a.time < b.time) :=
    ⟨fun _ _ _ h1 h2 => lt_trans h1 h2⟩
  have hBpair : (normBattery bs).Pairwise (fun a b : BatRow => a.time < b.time) :=
    List.chain'_iff_pairwise.mp hBchain
  refine ⟨?_, ?_, ?_⟩
  · rw [hdf, length_setDeltas]
    simp [mergeRows, normMotion]
  · rw [hdf, map_time_setDeltas, map_time_mergeRows]
    have : List.Chain' (fun a b : MotRow => a.time ≤ b.time) (normMotion ms) :=
      List.Chain'.imp (fun a b h => le_of_lt h) hMchain
    rw [show (fun m : MotRow => m.time) = MotRow.time from rfl]
    rw [List.chain'_map]
    exact this
  · intro r hr
    rw [hdf] at hr
    have hmem := mem_setDeltas _ r hr
    obtain ⟨m, hmmem, hconstruct⟩ := List.mem_map.mp hmem
    obtain ⟨b0, hb0⟩ := asofNearest_isSome m.time (normBattery bs) hBne
    obtain ⟨hb0mem, hb0min, hb0tie⟩ :=
      asofNearest_spec m.time (normBattery bs) hBpair b0 hb0
    have ht : r.time = m.time := by
      rw [show r.time = r.toARow.time from rfl, ← hconstruct]
    have hv : r.voltage_v = b0.voltage_v := by
      rw [show r.voltage_v = r.toARow.voltage_v from rfl, ← hconstruct]
      show ((asofNearest m.time (normBattery bs)).getD default).voltage_v = _
      rw [hb0]
      rfl
    have hc : r.current_a = b0.current_a := by
      rw [show r.current_a = r.toARow.current_a from rfl, ← hconstruct]
      show ((asofNearest m.time (normBattery bs)).getD default).current_a = _
      rw [hb0]
      rfl
    refine ⟨b0, hb0mem, hv, hc, ?_, ?_⟩
    · intro y hy
      rw [ht]
      exact hb0min y hy
    · intro y hy
      rw [ht]
      exact hb0tie y hy

/-- Witness for the aligner: two motion samples at 0 s and 1 s, two battery
samples at 0 s and 1 s. -/
theorem c2_witness :
    (([⟨0, 0, 0, 0, 0⟩, ⟨1000000, 0, 0, 0, 0⟩] : List MotionSample) ≠ []) ∧
    (([⟨0, 12, 5⟩, ⟨1000000, 12, 5⟩] : List BatterySample) ≠ []) ∧
    List.Chain' (fun a b : MotionSample => a.timestamp < b.timestamp)
      ([⟨0, 0, 0, 0, 0⟩, ⟨1000000, 0, 0, 0, 0⟩] : List MotionSample) ∧
    List.Chain' (fun a b : BatterySample => a.timestamp < b.timestamp)
      ([⟨0, 12, 5⟩, ⟨1000000, 12, 5⟩] : List BatterySample) ∧
    ((df_combined [⟨0, 0, 0, 0, 0⟩, ⟨1000000, 0, 0, 0, 0⟩]
        [⟨0, 12, 5⟩, ⟨1000000, 12, 5⟩]).length =
      ([⟨0, 0, 0, 0, 0⟩, ⟨1000000, 0, 0, 0, 0⟩] : List MotionSample).length ∧
      List.Chain' (· ≤ ·)
        ((df_combined [⟨0, 0, 0, 0, 0⟩, ⟨1000000, 0, 0, 0, 0⟩]
          [⟨0, 12, 5⟩, ⟨1000000, 12, 5⟩]).map (fun r : Row => r.time)) ∧
      ∀ r ∈ df_combined [⟨0, 0, 0, 0, 0⟩, ⟨1000000, 0, 0, 0, 0⟩]
          [⟨0, 12, 5⟩, ⟨1000000, 12, 5⟩],
        ∃ b ∈ normBattery [⟨0, 12, 5⟩, ⟨1000000, 12, 5⟩],
          r.voltage_v = b.voltage_v ∧ r.current_a = b.current_a ∧
          (∀ y ∈ normBattery [⟨0, 12, 5⟩, ⟨1000000, 12, 5⟩],
            |r.time - b.time| ≤ |r.time - y.time|) ∧
          (∀ y ∈ normBattery [⟨0, 12, 5⟩, ⟨1000000, 12, 5⟩],
            |r.time - y.time| = |r.time - b.time| → b.time ≤ y.time)) := by
  have hm : (([⟨0, 0, 0, 0, 0⟩, ⟨1000000, 0, 0, 0, 0⟩] : List MotionSample) ≠ []) := by simp
  have hb : (([⟨0, 12, 5⟩, ⟨1000000, 12, 5⟩] : List BatterySample) ≠ []) := by simp
  have hmc : List.Chain' (fun a b : MotionSample => a.timestamp < b.timestamp)
      ([⟨0, 0, 0, 0, 0⟩, ⟨1000000, 0, 0, 0, 0⟩] : List MotionSample) := by
    simp [List.chain'_cons]
    try norm_num
  have hbc : List.Chain' (fun a b : BatterySample => a.timestamp < b.timestamp)
      ([⟨0, 12, 5⟩, ⟨1000000, 12, 5⟩] : List BatterySample) := by
    simp [List.chain'_cons]
    try norm_num
  exact ⟨hm, hb, hmc, hbc, c2_aligner _ _ hm hb hmc hbc⟩

/-- Evaluation of the surviving rows of the all-ground test flight. -/
theorem groundFlight_surviving :
    surviving groundFlightMotion groundFlightBattery =
      [⟨⟨1, 0, 0, 0, 0, 12, 7.2⟩, 1⟩, ⟨⟨2, 0, 0, 0, 0, 12, 7.2⟩, 1⟩,
        ⟨⟨3, 0, 0, 0, 0, 12, 7.2⟩, 1⟩] := by
  norm_num [surviving, df_combined, groundFlightMotion, groundFlightBattery,
    normMotion, normBattery, sortByKey, insertByKey, mergeRows, asofNearest,
    findBwd, findFwd, setDeltas, deltasFrom, List.filter]

/-- C8: zero-delta exclusion.  The first combined row's `time_delta` is 0
(`diff().fillna(0)`), rows with `time_delta ≤ 0` never survive the filter,
every surviving row has `time_delta > 0`, the flight total counts exactly
the positive-delta rows, and every downstream computation — consolidation
and the whole report — is a function of the surviving rows only. -/
theorem c8_zero_delta_excluded (ms : List MotionSample) (bs : List BatterySample) :
    ((df_combined ms bs).head?.map (fun r : Row => r.time_delta)).getD 0 = 0 ∧
    (∀ r ∈ df_combined ms bs, r.time_delta ≤ 0 → r ∉ surviving ms bs) ∧
    (∀ r ∈ surviving ms bs, 0 < r.time_delta) ∧
    total_mAh (surviving ms bs) =
      ((df_combined ms bs).map (fun r => if 0 < r.time_delta then mAh r else 0)).sum ∧
    report ms bs = reportOf (surviving ms bs) ∧
    consolidated ms bs = consolidatedOf (surviving ms bs) := by
  refine ⟨?_, ?_, ?_, ?_, rfl, rfl⟩
  · have h : ∀ (l : List ARow),
        ((setDeltas l).head?.map (fun r : Row => r.time_delta)).getD 0 = 0 := by
      intro l
      cases l with
      | nil => rfl
      | cons a rs => simp [setDeltas]
    exact h _
  · intro r _ hle hmem
    rw [surviving, List.mem_filter] at hmem
    have := of_decide_eq_true hmem.2
    linarith
  · intro r hr
    rw [surviving, List.mem_filter] at hr
    exact of_decide_eq_true hr.2
  · rw [total_mAh, surviving]
    exact sum_map_filter_eq (fun r : Row => 0 < r.time_delta) mAh _

/-- Witness for the zero-delta exclusion, at the all-ground test flight. -/
theorem c8_witness :
    (((df_combined groundFlightMotion groundFlightBattery).head?.map
        (fun r : Row => r.time_delta)).getD 0 = 0 ∧
      (∀ r ∈ df_combined groundFlightMotion groundFlightBattery,
        r.time_delta ≤ 0 → r ∉ surviving groundFlightMotion groundFlightBattery) ∧
      (∀ r ∈ surviving groundFlightMotion groundFlightBattery, 0 < r.time_delta) ∧
      total_mAh (surviving groundFlightMotion groundFlightBattery) =
        ((df_combined groundFlightMotion groundFlightBattery).map
          (fun r => if 0 < r.time_delta then mAh r else 0)).sum ∧
      report groundFlightMotion groundFlightBattery =
        reportOf (surviving groundFlightMotion groundFlightBattery) ∧
      consolidated groundFlightMotion groundFlightBattery =
        consolidatedOf (surviving groundFlightMotion groundFlightBattery)) :=
  c8_zero_delta_excluded groundFlightMotion groundFlightBattery

/-- Partition of a guarded sum by a predicate. -/
theorem sum_map_filter_add_not {α : Type} (p : α → Prop) [DecidablePred p] (f : α → ℚ) :
    ∀ l : List α,
      ((l.filter (fun x => p x)).map f).sum + ((l.filter (fun x => ¬ p x)).map f).sum =
        (l.map f).sum := by
  intro l
  induction l with
  | nil => simp
  | cons x xs ih =>
    simp only [decide_not] at ih ⊢
    by_cases h : p x <;> simp [List.filter_cons, h] <;> linarith [ih]

/-- Grouping by phase conserves the summed total draw. -/
theorem groupPhases_draw_sum :
    ∀ (n : ℕ) (l : List PhaseRec), l.length ≤ n →
      ((groupPhases l).map PhaseRec.TotalDraw).sum = (l.map PhaseRec.TotalDraw).sum := by
  intro n
  induction n with
  | zero =>
    intro l hl
    rw [List.length_eq_zero.mp (Nat.le_zero.mp hl)]
    simp [groupPhases]
  | succ n ih =>
    intro l hl
    match l with
    | [] => simp [groupPhases]
    | p :: rest =>
      rw [groupPhases]
      have hlen : (rest.filter (fun q => ¬ q.Phase = p.Phase)).length ≤ n := by
        have h1 := List.length_filter_le
          (fun q : PhaseRec => decide (¬ q.Phase = p.Phase)) rest
        have h2 : rest.length ≤ n := by
          simpa using Nat.le_of_succ_le_succ (by simpa using hl)
        exact le_trans h1 h2
      rw [List.map_cons, List.sum_cons, ih _ hlen]
      have hpart := sum_map_filter_add_not
        (fun q : PhaseRec => q.Phase = p.Phase) PhaseRec.TotalDraw rest
      simp only [mkAgg]
      rw [List.map_cons, List.sum_cons] at *
      show p.TotalDraw + ((rest.filter (fun q => q.Phase = p.Phase)).map
          PhaseRec.TotalDraw).sum +
        ((rest.filter (fun q => ¬ q.Phase = p.Phase)).map PhaseRec.TotalDraw).sum =
        p.TotalDraw + (rest.map PhaseRec.TotalDraw).sum
      linarith

/-- C1 (amended): the flight-wide total is exactly the sum of the surviving
rows' charge draw, the phase grouping conserves the summed per-segment
draws, and the report's summed Total Draw equals the sum over surviving
segments of the draw inside their half-open windows — which need not equal
the flight-wide total, since surviving rows outside every window (rows of
discarded runs and the final row) count only toward the flight total. -/
theorem c1_amended_energy_sums (ms : List MotionSample) (bs : List BatterySample) :
    total_mAh (surviving ms bs) = ((surviving ms bs).map mAh).sum ∧
    ((df_phase ms bs).map PhaseRec.TotalDraw).sum =
      ((phaseData (surviving ms bs)).map PhaseRec.TotalDraw).sum ∧
    ((phaseData (surviving ms bs)).map PhaseRec.TotalDraw).sum =
      ((consolidated ms bs).map (fun seg =>
        (((surviving ms bs).filter
          (fun r => seg.2.1 ≤ r.time ∧ r.time < seg.2.2)).map mAh).sum)).sum := by
  refine ⟨rfl, ?_, ?_⟩
  · exact groupPhases_draw_sum (phaseData (surviving ms bs)).length _ le_rfl
  · rw [phaseData, List.map_map]
    rfl

/-- Evaluation of the consolidated segments of the all-ground test flight. -/
theorem groundFlight_consolidated :
    consolidatedOf (surviving groundFlightMotion groundFlightBattery) =
      [("On the Ground", 1, 3)] := by
  rw [groundFlight_surviving]
  norm_num [consolidatedOf, consolidate_phases, consolidateAux, lastTimeOf,
    toCRow, rawPhase, classify_row]

/-- Evaluation of the aggregated phase frame of the all-ground test flight:
one Ground record; its relative-draw percentage is the non-finite marker,
because the non-ground baseline divides zero by zero. -/
theorem groundFlight_df_phase :
    df_phase groundFlightMotion groundFlightBattery =
      [⟨"On the Ground", 2, 4, some 2, none, some 100⟩] := by
  show groupPhases (phaseData (surviving groundFlightMotion groundFlightBattery)) = _
  rw [phaseData, groundFlight_consolidated, groundFlight_surviving]
  norm_num [phaseEntry, avg_mAh_per_s_non_ground, total_mAh_non_ground,
    total_time_non_ground, nonGroundRows, rawPhase, classify_row, div?, odiv,
    omul, mAh, total_time, groupPhases, mkAgg, meanO, sumO, List.filter]
  norm_num [List.filterMap_cons]
  simp

/-- Counterexample to C1 as stated: on the all-ground test flight the
summed Total Draw of the report's phase records is 4, while the flight-wide
total charge draw is 6 — the final surviving row's draw (and in general any
draw outside the segments' half-open windows) is missing from every
aggregate. -/
theorem c1_counterexample :
    ((df_phase groundFlightMotion groundFlightBattery).map PhaseRec.TotalDraw).sum ≠
      total_mAh (surviving groundFlightMotion groundFlightBattery) := by
  rw [groundFlight_df_phase, groundFlight_surviving]
  norm_num [total_mAh, mAh]

/-- C4 as the code actually behaves: on the all-ground flight the
non-ground baseline is a zero-by-zero division — the non-finite marker
`none` (a float `NaN`) — and it propagates into the report's Ground
record's DiffofAvg field; the code contains no "unavailable" handling. -/
theorem c4_nan_reaches_report :
    avg_mAh_per_s_non_ground (surviving groundFlightMotion groundFlightBattery) = none ∧
    total_time_non_ground (surviving groundFlightMotion groundFlightBattery) = 0 ∧
    (df_phase groundFlightMotion groundFlightBattery).map PhaseRec.DiffofAvg = [none] := by
  refine ⟨?_, ?_, ?_⟩
  · rw [groundFlight_surviving]
    norm_num [avg_mAh_per_s_non_ground, total_mAh_non_ground, total_time_non_ground,
      nonGroundRows, rawPhase, classify_row, div?, mAh, List.filter]
  · rw [groundFlight_surviving]
    norm_num [total_time_non_ground, nonGroundRows, rawPhase, classify_row, List.filter]
  · rw [groundFlight_df_phase]
    rfl

/-- Filtering by label commutes with projecting the label. -/
theorem map_phase_filter_ne (s : String) : ∀ (l : List PhaseRec),
    (l.filter (fun q => ¬ q.Phase = s)).map PhaseRec.Phase =
      (l.map PhaseRec.Phase).filter (fun x => ¬ x = s) := by
  intro l
  induction l with
  | nil => rfl
  | cons q rest ih =>
    simp only [decide_not] at ih ⊢
    by_cases h : q.Phase = s <;>
      simp [List.filter_cons, h, ih]

/-- The group keys of `groupPhases` are the distinct phase labels in
first-occurrence order. -/
theorem groupPhases_keys :
    ∀ (n : ℕ) (l : List PhaseRec), l.length ≤ n →
      (groupPhases l).map PhaseRec.Phase = dedupKeys (l.map PhaseRec.Phase) := by
  intro n
  induction n with
  | zero =>
    intro l hl
    rw [List.length_eq_zero.mp (Nat.le_zero.mp hl)]
    simp [groupPhases, dedupKeys]
  | succ n ih =>
    intro l hl
    match l with
    | [] => simp [groupPhases, dedupKeys]
    | p :: rest =>
      rw [groupPhases, List.map_cons, List.map_cons, dedupKeys]
      have hlen : (rest.filter (fun q => ¬ q.Phase = p.Phase)).length ≤ n := by
        have h1 := List.length_filter_le
          (fun q : PhaseRec => decide (¬ q.Phase = p.Phase)) rest
        have h2 : rest.length ≤ n := by
          simpa using Nat.le_of_succ_le_succ (by simpa using hl)
        exact le_trans h1 h2
      rw [ih _ hlen, map_phase_filter_ne]
      rfl

/-- Distinct keys are members of the original list. -/
theorem mem_dedupKeys :
    ∀ (n : ℕ) (l : List String), l.length ≤ n → ∀ x ∈ dedupKeys l, x ∈ l := by
  intro n
  induction n with
  | zero =>
    intro l hl x hx
    rw [List.length_eq_zero.mp (Nat.le_zero.mp hl)] at hx
    simp [dedupKeys] at hx
  | succ n ih =>
    intro l hl x hx
    match l with
    | [] => simp [dedupKeys] at hx
    | s :: rest =>
      rw [dedupKeys] at hx
      have hlen : (rest.filter (fun y => ¬ y = s)).length ≤ n := by
        have h1 := List.length_filter_le (fun y : String => decide (¬ y = s)) rest
        have h2 : rest.length ≤ n := by
          simpa using Nat.le_of_succ_le_succ (by simpa using hl)
        exact le_trans h1 h2
      rcases List.mem_cons.mp hx with rfl | hx'
      · exact List.mem_cons_self _ _
      · exact List.mem_cons_of_mem _
          (List.mem_of_mem_filter (ih _ hlen x hx'))

/-- The distinct keys contain no duplicates. -/
theorem dedupKeys_nodup :
    ∀ (n : ℕ) (l : List String), l.length ≤ n → (dedupKeys l).Nodup := by
  intro n
  induction n with
  | zero =>
    intro l hl
    rw [List.length_eq_zero.mp (Nat.le_zero.mp hl)]
    simp [dedupKeys]
  | succ n ih =>
    intro l hl
    match l with
    | [] => simp [dedupKeys]
    | s :: rest =>
      rw [dedupKeys]
      have hlen : (rest.filter (fun y => ¬ y = s)).length ≤ n := by
        have h1 := List.length_filter_le (fun y : String => decide (¬ y = s)) rest
        have h2 : rest.length ≤ n := by
          simpa using Nat.le_of_succ_le_succ (by simpa using hl)
        exact le_trans h1 h2
      rw [List.nodup_cons]
      refine ⟨?_, ih _ hlen⟩
      intro hmem
      have := mem_dedupKeys _ _ le_rfl s hmem
      rw [List.mem_filter] at this
      have := of_decide_eq_true this.2
      exact this rfl

/-- Every consolidated segment's label is some surviving row's raw phase. -/
theorem consolidated_label_from_row (rows : List Row) (seg : Seg)
    (h : seg ∈ consolidatedOf rows) : ∃ r ∈ rows, seg.1 = rawPhase r := by
  rw [consolidatedOf, consolidate_phases_eq_segsOfRuns] at h
  obtain ⟨run, hrun, -, hlbl, -, -⟩ := mem_segsOfRuns _ _ _ seg h
  have hhead := mem_chunks_head_mem (rows.map toCRow).length _ le_rfl run hrun
  obtain ⟨r, hr, hrr⟩ := List.mem_map.mp hhead
  refine ⟨r, hr, ?_⟩
  rw [hlbl, ← hrr]
  rfl

/-- C9 (amended): the report is the per-phase records followed by exactly
one summary record: the summary is last, carries the fixed label
"Total Flight Summary" and the draw-per-minute value
`round2 (total_mAh / (total_time / 60))`; the preceding records are exactly
one per distinct label of the surviving segments (no duplicates, and none
of them uses the summary label).  As stated the claim fails — a label
present in the flight only through rows of discarded runs gets no record
(see the counterexample). -/
theorem c9_amended_report_structure (ms : List MotionSample) (bs : List BatterySample)
    (htt : total_time (surviving ms bs) ≠ 0) :
    (report ms bs).getLast? = some (summaryRec (surviving ms bs)) ∧
    (summaryRec (surviving ms bs)).Phase = "Total Flight Summary" ∧
    (summaryRec (surviving ms bs)).DrawPerMin =
      some (round2 (total_mAh (surviving ms bs) / (total_time (surviving ms bs) / 60))) ∧
    ((report ms bs).dropLast).map ReportRec.Phase =
      dedupKeys ((consolidated ms bs).map (fun s => s.1)) ∧
    (((report ms bs).dropLast).map ReportRec.Phase).Nodup ∧
    ∀ rec ∈ (report ms bs).dropLast, rec.Phase ≠ "Total Flight Summary" := by
  have hdrop : (report ms bs).dropLast =
      (groupPhases (phaseData (surviving ms bs))).map toReportRec := by
    show ((groupPhases (phaseData (surviving ms bs))).map toReportRec ++
      [summaryRec (surviving ms bs)]).dropLast = _
    rw [List.dropLast_concat]
  have hkeys : ((report ms bs).dropLast).map ReportRec.Phase =
      dedupKeys ((consolidated ms bs).map (fun s => s.1)) := by
    rw [hdrop, List.map_map]
    have h1 : ReportRec.Phase ∘ toReportRec = PhaseRec.Phase := rfl
    rw [h1, groupPhases_keys (phaseData (surviving ms bs)).length _ le_rfl]
    have h2 : (phaseData (surviving ms bs)).map PhaseRec.Phase =
        (consolidated ms bs).map (fun s => s.1) := by
      rw [phaseData, List.map_map]
      rfl
    rw [h2]
  refine ⟨?_, rfl, ?_, hkeys, ?_, ?_⟩
  · show ((groupPhases (phaseData (surviving ms bs))).map toReportRec ++
      [summaryRec (surviving ms bs)]).getLast? = _
    rw [List.getLast?_append]
    rfl
  · show (div? (total_mAh (surviving ms bs))
      (total_time (surviving ms bs) / 60)).map round2 = _
    have h60 : total_time (surviving ms bs) / 60 ≠ 0 := by
      intro h
      apply htt
      have := div_eq_zero_iff.mp h
      rcases this with h' | h'
      · exact h'
      · norm_num at h'
    rw [div?, if_neg h60]
    rfl
  · rw [hkeys]
    exact dedupKeys_nodup ((consolidated ms bs).map (fun s => s.1)).length _ le_rfl
  · intro rec hrec
    have hmem : rec.Phase ∈ ((report ms bs).dropLast).map ReportRec.Phase :=
      List.mem_map_of_mem _ hrec
    rw [hkeys] at hmem
    have hmem2 := mem_dedupKeys ((consolidated ms bs).map (fun s => s.1)).length _
      le_rfl rec.Phase hmem
    obtain ⟨seg, hseg, hsegeq⟩ := List.mem_map.mp hmem2
    obtain ⟨r, -, hlbl⟩ := consolidated_label_from_row (surviving ms bs) seg hseg
    intro hbad
    have : rec.Phase ∈ phaseLabels := by
      rw [← hsegeq, hlbl, rawPhase]
      exact classify_row_mem_phaseLabels _ _ _
    rw [hbad] at this
    simp [phaseLabels] at this

/-- Witness for the amended report structure, at the all-ground test
flight (total flight time 2 s). -/
theorem c9_amended_witness :
    total_time (surviving groundFlightMotion groundFlightBattery) ≠ 0 ∧
    ((report groundFlightMotion groundFlightBattery).getLast? =
        some (summaryRec (surviving groundFlightMotion groundFlightBattery)) ∧
      (summaryRec (surviving groundFlightMotion groundFlightBattery)).Phase =
        "Total Flight Summary" ∧
      (summaryRec (surviving groundFlightMotion groundFlightBattery)).DrawPerMin =
        some (round2 (total_mAh (surviving groundFlightMotion groundFlightBattery) /
          (total_time (surviving groundFlightMotion groundFlightBattery) / 60))) ∧
      ((report groundFlightMotion groundFlightBattery).dropLast).map ReportRec.Phase =
        dedupKeys ((consolidated groundFlightMotion groundFlightBattery).map
          (fun s => s.1)) ∧
      (((report groundFlightMotion groundFlightBattery).dropLast).map
        ReportRec.Phase).Nodup ∧
      ∀ rec ∈ (report groundFlightMotion groundFlightBattery).dropLast,
        rec.Phase ≠ "Total Flight Summary") := by
  have htt : total_time (surviving groundFlightMotion groundFlightBattery) ≠ 0 := by
    rw [groundFlight_surviving]
    norm_num [total_time]
  exact ⟨htt, c9_amended_report_structure groundFlightMotion groundFlightBattery htt⟩

/-- Evaluation of the surviving rows of the flicker test flight. -/
theorem flickerFlight_surviving :
    surviving flickerFlightMotion groundFlightBattery =
      [⟨⟨1, 0, 0, 0, 0, 12, 7.2⟩, 1⟩, ⟨⟨2, 0, 0, 0, 0, 12, 7.2⟩, 1⟩,
        ⟨⟨3, 0, 0, 0, 0, 12, 7.2⟩, 1⟩, ⟨⟨7/2, 0, 0, -1, 0, 12, 7.2⟩, 1/2⟩,
        ⟨⟨4, 0, 0, 0, 0, 12, 7.2⟩, 1/2⟩, ⟨⟨5, 0, 0, 0, 0, 12, 7.2⟩, 1⟩,
        ⟨⟨6, 0, 0, 0, 0, 12, 7.2⟩, 1⟩] := by
  norm_num [surviving, df_combined, flickerFlightMotion, groundFlightBattery,
    normMotion, normBattery, sortByKey, insertByKey, mergeRows, asofNearest,
    findBwd, findFwd, setDeltas, deltasFrom, List.filter]

/-- Evaluation of the consolidated segments of the flicker test flight:
the half-second Climbing flicker is discarded, leaving two Ground
segments. -/
theorem flickerFlight_consolidated :
    consolidatedOf (surviving flickerFlightMotion groundFlightBattery) =
      [("On the Ground", 1, 7/2), ("On the Ground", 4, 6)] := by
  rw [flickerFlight_surviving]
  norm_num [consolidatedOf, consolidate_phases, consolidateAux, lastTimeOf,
    toCRow, rawPhase, classify_row]
  simp

/-- Evaluation of the full report of the flicker test flight: a single
Ground record plus the flight summary. -/
theorem flickerFlight_report :
    report flickerFlightMotion groundFlightBattery =
      [⟨"On the Ground", 9/2, 9, some (39/20), some (195/2), some 90, none⟩,
        ⟨"Total Flight Summary", 5, 12, none, none, none, some 144⟩] := by
  show (groupPhases (phaseData (surviving flickerFlightMotion groundFlightBattery))).map
      toReportRec ++
      [summaryRec (surviving flickerFlightMotion groundFlightBattery)] = _
  rw [phaseData, flickerFlight_consolidated, flickerFlight_surviving]
  norm_num [phaseEntry, avg_mAh_per_s_non_ground, total_mAh_non_ground,
    total_time_non_ground, nonGroundRows, rawPhase, classify_row, div?, odiv,
    omul, mAh, total_time, total_mAh, groupPhases, mkAgg, meanO, sumO,
    summaryRec, toReportRec, round2, roundHalfEven, List.filter,
    List.filterMap_cons]
  simp
  norm_num [List.filterMap_cons, mAh]
  simp

/-- Counterexample to C9 as stated: in the flicker flight the raw label
"Climbing" is present among the surviving rows, yet the report contains no
Climbing record — labels of runs discarded by the consolidator get no
record. -/
theorem c9_counterexample :
    ("Climbing" ∈ (surviving flickerFlightMotion groundFlightBattery).map rawPhase) ∧
    ∀ rec ∈ report flickerFlightMotion groundFlightBattery,
      rec.Phase ≠ "Climbing" := by
  constructor
  · rw [flickerFlight_surviving]
    norm_num [rawPhase, classify_row]
  · rw [flickerFlight_report]
    intro rec hrec
    rcases List.mem_cons.mp hrec with rfl | hrec'
    · decide
    · rcases List.mem_cons.mp hrec' with rfl | hrec''
      · decide
      · simp at hrec''
